import Mathlib

/-!
# SSH backend lease configuration (`builtin/logical/ssh/path_config_lease.go`)

A shallow embedding of the two operations of the file, `pathConfigLeaseWrite`
and `Lease`, together with the collaborators they call.

* `time.Duration` is an `int64` count of nanoseconds; it is embedded as `Int`.
* A Go `error` is embedded as its message (`Option String`, `none` for `nil`).
* The storage handle, the JSON encoder/decoder and `time.ParseDuration` are
  collaborators that live outside the file.  The operations take them as a
  record `Collab σ` over an arbitrary storage state `σ`; every general theorem
  quantifies over that record, so it holds for whichever implementation is
  linked in.  `time.ParseDuration` is in addition transcribed from the Go
  standard library (`ParseDuration`) so that concrete inputs can be evaluated.
-/

namespace Vault.SSH

/-! ## Data model -/

/-- Go `time.Duration`: a signed count of nanoseconds. -/
abbrev Duration := Int

/-- Go `time.Nanosecond` .. `time.Hour`, in nanoseconds. -/
def Nanosecond : Nat := 1
def Microsecond : Nat := 1000 * Nanosecond
def Millisecond : Nat := 1000 * Microsecond
def Second : Nat := 1000 * Millisecond
def Minute : Nat := 60 * Second
def Hour : Nat := 60 * Minute

/-- The record `configLease` of the source (lines 11-14). -/
structure configLease where
  Lease : Duration
  LeaseMax : Duration
deriving DecidableEq, Repr

/-- The type `logical.StorageEntry`: a key and the encoded bytes stored under it. -/
structure StorageEntry where
  Key : String
  Value : String
deriving DecidableEq, Repr

/-- The type `logical.Response`, restricted to the fields an error response sets. -/
structure Response where
  IsError : Bool
  Data : List (String × String)
deriving DecidableEq, Repr

/-- Modelled from the spec: `logical.ErrorResponse` is not under `src/`; it builds
the "structured client-error response carrying a human-readable message". -/
def ErrorResponse (text : String) : Response :=
  { IsError := true, Data := [("error", text)] }

/-- The type `framework.FieldData`: the raw request fields by name. -/
structure FieldData where
  Raw : List (String × String)
deriving DecidableEq, Repr

/-- Modelled from the spec: `framework.FieldData.Get` is not under `src/`; for a
string field it yields the supplied text, and the empty string when the field is
absent ("a write with either missing is rejected"). -/
def FieldData.Get (d : FieldData) (k : String) : String :=
  match d.Raw.lookup k with
  | some v => v
  | none => ""

/-- The collaborators of the two operations, over a storage state `σ`:
`time.ParseDuration`, the JSON encoder and decoder behind
`logical.StorageEntryJSON` and `StorageEntry.DecodeJSON`, and the two methods of
`logical.Storage` that the file calls.  `Put` returns the storage after the call
and the error it reports (`none` for `nil`). -/
structure Collab (σ : Type) where
  ParseDuration : String → Except String Duration
  Marshal : configLease → Except String String
  Unmarshal : String → Except String configLease
  Get : σ → String → Except String (Option StorageEntry)
  Put : σ → StorageEntry → σ × Option String

variable {σ : Type}

/-- Modelled from the spec: `logical.StorageEntryJSON` is not under `src/`; it
serialises the value and packs the bytes under the given key ("a serialized
object ... stored under the fixed logical key"). -/
def StorageEntryJSON (E : Collab σ) (k : String) (v : configLease) :
    Except String StorageEntry :=
  match E.Marshal v with
  | .error err => .error err
  | .ok encodedBytes => .ok { Key := k, Value := encodedBytes }

/-- Modelled from the spec: `StorageEntry.DecodeJSON` is not under `src/`; it
decodes the stored bytes of the entry into a record. -/
def StorageEntry.DecodeJSON (E : Collab σ) (e : StorageEntry) : Except String configLease :=
  E.Unmarshal e.Value

/-! ## The two operations -/

/-- The handler `pathConfigLeaseWrite` (lines 39-76).  The result is the storage
after the call, the response (`none` for `nil`) and the Go error (`none` for
`nil`). -/
def pathConfigLeaseWrite (E : Collab σ) (s : σ) (d : FieldData) :
    σ × Option Response × Option String :=
  let leaseRaw := d.Get "lease"
  if leaseRaw = "" then
    (s, some (ErrorResponse "Missing lease"), none)
  else
    let leaseMaxRaw := d.Get "lease_max"
    if leaseMaxRaw = "" then
      (s, some (ErrorResponse "Missing lease_max"), none)
    else
      match E.ParseDuration leaseRaw with
      | .error err => (s, some (ErrorResponse ("Invalid 'lease': " ++ err)), none)
      | .ok lease =>
        match E.ParseDuration leaseMaxRaw with
        | .error err => (s, some (ErrorResponse ("Invalid 'lease_max': " ++ err)), none)
        | .ok leaseMax =>
          match StorageEntryJSON E "config/lease" { Lease := lease, LeaseMax := leaseMax } with
          | .error err => (s, none, some ("could not create storage entry JSON: " ++ err))
          | .ok entry =>
            match E.Put s entry with
            | (s', some err) => (s', none, some ("could not store JSON: " ++ err))
            | (s', none) => (s', none, none)

/-- The accessor `Lease` (lines 78-95): the record (`none` for `nil`) and the Go
error (`none` for `nil`). -/
def Lease (E : Collab σ) (s : σ) : Option configLease × Option String :=
  match E.Get s "config/lease" with
  | .error err => (none, some err)
  | .ok none => (none, none)
  | .ok (some entry) =>
    match entry.DecodeJSON E with
    | .error err => (none, some err)
    | .ok result => (some result, none)

/-! ## `time.ParseDuration` (Go standard library, package `time`)

The parser works on the bytes of the string.  The embedding works on its
characters: the only bytes the parser tells apart are `+`, `-`, `.` and the ten
digits, which are single-byte characters, and a unit is looked up as a whole.
The one floating-point step of the parser, the nanoseconds contributed by a
fractional part, is a parameter `frac`. -/

/-- The test `'0' <= c && c <= '9'` of the parser. -/
def isDigit (c : Char) : Bool := 48 ≤ c.toNat && c.toNat ≤ 57

/-- The helper `leadingInt` of package `time`: consume the leading `[0-9]*`, with
`none` for `errLeadingInt` (overflow past `1<<63`).  The accumulator `x` is the
local `x` of the loop. -/
def leadingIntFrom : Nat → List Char → Option (Nat × List Char)
  | x, [] => some (x, [])
  | x, c :: cs =>
    if !isDigit c then some (x, c :: cs)
    else if x > 2 ^ 63 / 10 then none
    else
      let x1 := x * 10 + c.toNat - 48
      if x1 > 2 ^ 63 then none else leadingIntFrom x1 cs

/-- The helper `leadingInt` with the accumulator started at zero. -/
def leadingInt (s : List Char) : Option (Nat × List Char) := leadingIntFrom 0 s

/-- The helper `leadingFraction` of package `time`: consume the leading `[0-9]*`
of a fractional part; on overflow it stops accumulating precision.  The result is
the digits read as a number, the scale (a power of ten) and the rest. -/
def leadingFractionFrom : Nat → Nat → Bool → List Char → Nat × Nat × List Char
  | x, scale, _, [] => (x, scale, [])
  | x, scale, overflow, c :: cs =>
    if !isDigit c then (x, scale, c :: cs)
    else if overflow then leadingFractionFrom x scale overflow cs
    else if x > (2 ^ 63 - 1) / 10 then leadingFractionFrom x scale true cs
    else
      let y := x * 10 + c.toNat - 48
      if y > 2 ^ 63 then leadingFractionFrom x scale true cs
      else leadingFractionFrom y (scale * 10) overflow cs

/-- The helper `leadingFraction` with `x = 0`, `scale = 1`, `overflow = false`. -/
def leadingFraction (s : List Char) : Nat × Nat × List Char :=
  leadingFractionFrom 0 1 false s

/-- The table `unitMap` of package `time`. -/
def unitMap : List (String × Nat) :=
  [("ns", Nanosecond), ("us", Microsecond), ("µs", Microsecond), ("μs", Microsecond),
   ("ms", Millisecond), ("s", Second), ("m", Minute), ("h", Hour)]

/-- One hexadecimal digit, as in the table `lowerhex`. -/
def lowerhex (n : Nat) : Char :=
  if n < 10 then Char.ofNat (48 + n) else Char.ofNat (87 + n)

/-- The helper `quote` of package `time`: the text between double quotes, with
`"` and `\` escaped and every byte of a non-printable or non-ASCII character
written as `\x` and two hexadecimal digits. -/
def quote (s : String) : String :=
  let body := s.data.flatMap fun c =>
    if c.toNat ≥ 128 ∨ c.toNat < 32 then
      (String.singleton c).toUTF8.toList.flatMap fun b =>
        ['\\', 'x', lowerhex (b.toNat / 16), lowerhex (b.toNat % 16)]
    else if c = '"' ∨ c = '\\' then ['\\', c]
    else [c]
  String.mk ('"' :: body ++ ['"'])

/-- The step `Consume (\.[0-9]*)?` of a round: after a period, the fraction `f`,
its `scale`, the rest of the input and `post`, whether a digit was consumed;
without a period, `f = 0`, `scale = 1` and `post = false`. -/
def optionalFraction (s1 : List Char) : Nat × Nat × List Char × Bool :=
  match s1 with
  | '.' :: r =>
    let lf := leadingFraction r
    (lf.1, lf.2.1, lf.2.2, r.length != lf.2.2.length)
  | _ => (0, 1, s1, false)

/-- One round of the loop `for s != ""` of `ParseDuration`, on the non-empty
rest `c :: cs` of the input with running total `d`: a magnitude, an optional
fraction and a unit are consumed.  The result is the new total and the rest of
the input, or the error returned; `orig` is the whole input (for messages). -/
def parseRound (frac : Nat → Nat → Nat → Nat) (orig : String) (c : Char) (cs : List Char)
    (d : Nat) : Except String (Nat × List Char) :=
  -- The next character must be [0-9.]
  if !(c = '.' || isDigit c) then .error ("time: invalid duration " ++ quote orig)
  else
    -- Consume [0-9]*
    match leadingInt (c :: cs) with
    | none => .error ("time: invalid duration " ++ quote orig)
    | some (v, s1) =>
      let pre := (c :: cs).length != s1.length
      -- Consume (\.[0-9]*)?
      let fr := optionalFraction s1
      let f := fr.1
      let scale := fr.2.1
      let s2 := fr.2.2.1
      let post := fr.2.2.2
      if !pre && !post then .error ("time: invalid duration " ++ quote orig)
      else
        -- Consume unit.
        let u := s2.takeWhile fun c => !(c = '.' || isDigit c)
        let s3 := s2.dropWhile fun c => !(c = '.' || isDigit c)
        if u.length = 0 then .error ("time: missing unit in duration " ++ quote orig)
        else
          match unitMap.lookup (String.mk u) with
          | none =>
            .error ("time: unknown unit " ++ quote (String.mk u) ++ " in duration " ++ quote orig)
          | some unit =>
            if v > 2 ^ 63 / unit then .error ("time: invalid duration " ++ quote orig)
            else
              let v1 := v * unit
              let withFrac : Option Nat :=
                if f > 0 then
                  let v2 := (v1 + frac f unit scale) % 2 ^ 64
                  if v2 > 2 ^ 63 then none else some v2
                else some v1
              match withFrac with
              | none => .error ("time: invalid duration " ++ quote orig)
              | some v3 =>
                let d1 := (d + v3) % 2 ^ 64
                if d1 > 2 ^ 63 then .error ("time: invalid duration " ++ quote orig)
                else .ok (d1, s3)

/-- The loop `for s != ""` of `ParseDuration`: `d` is the running total.  Each
round consumes at least one character of `s` (`parseRound_shorter`), so a `fuel`
of the length of `s` is never used up (`parseLoop_fuel`). -/
def parseLoop (frac : Nat → Nat → Nat → Nat) (orig : String) :
    Nat → List Char → Nat → Except String Nat
  | _, [], d => .ok d
  | 0, _ :: _, _ => .error ("time: invalid duration " ++ quote orig)
  | fuel + 1, c :: cs, d =>
    match parseRound frac orig c cs d with
    | .error err => .error err
    | .ok (d1, s3) => parseLoop frac orig fuel s3 d1

/-- Go `time.ParseDuration`.  `frac f unit scale` stands for the floating-point
expression `uint64(float64(f) * (float64(unit) / scale))`. -/
def ParseDuration (frac : Nat → Nat → Nat → Nat) (orig : String) : Except String Duration :=
  -- Consume [-+]?
  let sg : Bool × List Char :=
    match orig.data with
    | '-' :: r => (true, r)
    | '+' :: r => (false, r)
    | r => (false, r)
  let neg := sg.1
  let s := sg.2
  -- Special case: if all that is left is "0", this is zero.
  if s = ['0'] then .ok 0
  else if s = [] then .error ("time: invalid duration " ++ quote orig)
  else
    match parseLoop frac orig s.length s 0 with
    | .error err => .error err
    | .ok d =>
      if neg then .ok (-(d : Int))
      else if d > 2 ^ 63 - 1 then .error ("time: invalid duration " ++ quote orig)
      else .ok (d : Int)

/-- The fractional step computed exactly, `f * unit / scale` rounded down. -/
def fracExact (f unit scale : Nat) : Nat := f * unit / scale

/-- The inputs of a write pass validation: both fields are non-empty and the
parser accepts both, yielding the durations `d1` and `d2`. -/
def ValidInput (E : Collab σ) (d : FieldData) (d1 d2 : Duration) : Prop :=
  d.Get "lease" ≠ "" ∧ d.Get "lease_max" ≠ "" ∧
    E.ParseDuration (d.Get "lease") = .ok d1 ∧ E.ParseDuration (d.Get "lease_max") = .ok d2

/-- The inputs of a write fail validation: a field is empty or the parser
rejects one. -/
def InvalidInput (E : Collab σ) (d : FieldData) : Prop :=
  d.Get "lease" = "" ∨ d.Get "lease_max" = "" ∨
    (∃ err, E.ParseDuration (d.Get "lease") = .error err) ∨
    (∃ err, E.ParseDuration (d.Get "lease_max") = .error err)

/-! ## Contracts of the collaborators -/

/-- Read-after-write consistency of the storage: after a `Put` that reports no
error, `Get` at the entry's key yields that entry. -/
def Collab.ReadAfterWrite (E : Collab σ) : Prop :=
  ∀ (s : σ) (e : StorageEntry), (E.Put s e).2 = none → E.Get (E.Put s e).1 e.Key = .ok (some e)

/-- Per-key independence of the storage: a `Put` that reports no error leaves
what `Get` yields at every other key as it was. -/
def Collab.PutFrame (E : Collab σ) : Prop :=
  ∀ (s : σ) (e : StorageEntry) (k : String),
    (E.Put s e).2 = none → k ≠ e.Key → E.Get (E.Put s e).1 k = E.Get s k

/-- Round-trip fidelity of the encoding: decoding the bytes of an encoded record
yields that record. -/
def Collab.RoundTrip (E : Collab σ) : Prop :=
  ∀ (c : configLease) (b : String), E.Marshal c = .ok b → E.Unmarshal b = .ok c

/-- Encoding a record of two durations never fails. -/
def Collab.Encodes (E : Collab σ) : Prop :=
  ∀ c : configLease, ∃ b : String, E.Marshal c = .ok b

/-- A `Put` that reports an error has stored nothing: what `Get` yields at every
key is as it was. -/
def Collab.FailedPutKeeps (E : Collab σ) : Prop :=
  ∀ (s : σ) (e : StorageEntry) (k : String),
    (E.Put s e).2 ≠ none → E.Get (E.Put s e).1 k = E.Get s k

/-- The storage after the writes `ds`, applied in order. -/
def writes (E : Collab σ) : σ → List FieldData → σ
  | s, [] => s
  | s, d :: ds => writes E (pathConfigLeaseWrite E s d).1 ds

/-- None of the writes `ds`, applied in order from `s`, succeeded: each returned
an error response or a Go error. -/
def NoneSucceeded (E : Collab σ) : σ → List FieldData → Prop
  | _, [] => True
  | s, d :: ds =>
    (pathConfigLeaseWrite E s d).2 ≠ (none, none) ∧
      NoneSucceeded E (pathConfigLeaseWrite E s d).1 ds

/-- The calls a client of the component can make: a write with given fields, or
the accessor `Lease`. -/
inductive Op where
  | write (d : FieldData)
  | lease
deriving DecidableEq, Repr

/-- The storage after one call: `pathConfigLeaseWrite` hands back the storage it
leaves, `Lease` only calls `Get` and leaves the storage as it was. -/
def step (E : Collab σ) (s : σ) : Op → σ
  | .write d => (pathConfigLeaseWrite E s d).1
  | .lease => s

/-- The storage after the calls `ops`, made in order. -/
def run (E : Collab σ) : σ → List Op → σ
  | s, [] => s
  | s, op :: ops => run E (step E s op) ops

/-- The configured state: `Lease` returns a non-nil record. -/
def Configured (E : Collab σ) (s : σ) : Prop :=
  ∃ c, Lease E s = (some c, none)

/-! ## The operations with their effects spelled out

The embedding above leaves two things implicit: which methods of the storage an
operation calls, and where the `configLease` records it creates live.  Here both
are explicit.  A `World` carries the storage, the calls made on it so far and the
memory of `configLease` records; a pointer `*configLease` is an index into that
memory. -/

/-- A call of a method of `logical.Storage`. -/
inductive StorageCall where
  | get (k : String)
  | put (e : StorageEntry)
deriving DecidableEq, Repr

/-- The storage, the calls made on it so far (oldest first) and the memory of
`configLease` records allocated so far (oldest first). -/
structure World (σ : Type) where
  storage : σ
  calls : List StorageCall
  heap : List configLease
deriving DecidableEq, Repr

/-- The record a pointer points to (`none` for `nil` and for no such record). -/
def World.deref (w : World σ) : Option Nat → Option configLease
  | none => none
  | some p => w.heap[p]?

/-- The accessor `Lease` (lines 78-95) with its effects: the call `s.Get` is
logged, `var result configLease` allocates a zero record, `DecodeJSON(&result)`
fills it, and the pointer `&result` is returned. -/
def LeaseW (E : Collab σ) (w : World σ) : World σ × Option Nat × Option String :=
  -- entry, err := s.Get("config/lease")
  let w1 : World σ := { w with calls := w.calls ++ [.get "config/lease"] }
  match E.Get w.storage "config/lease" with
  | .error err => (w1, none, some err)
  | .ok none => (w1, none, none)
  | .ok (some entry) =>
    -- var result configLease
    let p := w1.heap.length
    let w2 : World σ := { w1 with heap := w1.heap ++ [{ Lease := 0, LeaseMax := 0 }] }
    match entry.DecodeJSON E with
    | .error err => (w2, none, some err)
    | .ok result => ({ w2 with heap := w2.heap.set p result }, some p, none)

/-- The handler `pathConfigLeaseWrite` (lines 39-76) with its effects: the
literal `&configLease{...}` allocates a record, and the call `req.Storage.Put` is
logged. -/
def pathConfigLeaseWriteW (E : Collab σ) (w : World σ) (d : FieldData) :
    World σ × Option Response × Option String :=
  let leaseRaw := d.Get "lease"
  if leaseRaw = "" then
    (w, some (ErrorResponse "Missing lease"), none)
  else
    let leaseMaxRaw := d.Get "lease_max"
    if leaseMaxRaw = "" then
      (w, some (ErrorResponse "Missing lease_max"), none)
    else
      match E.ParseDuration leaseRaw with
      | .error err => (w, some (ErrorResponse ("Invalid 'lease': " ++ err)), none)
      | .ok lease =>
        match E.ParseDuration leaseMaxRaw with
        | .error err => (w, some (ErrorResponse ("Invalid 'lease_max': " ++ err)), none)
        | .ok leaseMax =>
          -- &configLease{Lease: lease, LeaseMax: leaseMax}
          let w1 : World σ :=
            { w with heap := w.heap ++ [{ Lease := lease, LeaseMax := leaseMax }] }
          match StorageEntryJSON E "config/lease" { Lease := lease, LeaseMax := leaseMax } with
          | .error err => (w1, none, some ("could not create storage entry JSON: " ++ err))
          | .ok entry =>
            -- req.Storage.Put(entry)
            let w2 : World σ := { w1 with calls := w1.calls ++ [.put entry] }
            match E.Put w.storage entry with
            | (s', some err) =>
              ({ w2 with storage := s' }, none, some ("could not store JSON: " ++ err))
            | (s', none) => ({ w2 with storage := s' }, none, none)

/-- The world after one call. -/
def stepW (E : Collab σ) (w : World σ) : Op → World σ
  | .write d => (pathConfigLeaseWriteW E w d).1
  | .lease => (LeaseW E w).1

/-- The world after the calls `ops`, made in order. -/
def runW (E : Collab σ) : World σ → List Op → World σ
  | w, [] => w
  | w, op :: ops => runW E (stepW E w op) ops

/-! ## A reference environment

An in-memory storage, a decimal JSON codec for the record and the standard
library parser.  It shows that the contracts above can be met and serves for the
concrete evaluations. -/

deriving instance DecidableEq for Except

/-- An in-memory storage: the entries, at most one per key. -/
abbrev MemStorage := List StorageEntry

/-- The entry stored under `k`, if any. -/
def MemStorage.Get (s : MemStorage) (k : String) : Except String (Option StorageEntry) :=
  .ok (s.find? fun e => e.Key == k)

/-- Store `e`, replacing the entry of the same key. -/
def MemStorage.Put (s : MemStorage) (e : StorageEntry) : MemStorage × Option String :=
  (e :: s.filter fun x => x.Key != e.Key, none)

/-- The decimal digit `d` as a character. -/
def digitChar (d : Nat) : Char := Char.ofNat (48 + d)

/-- The decimal digits of `n`, most significant first. -/
def decimal (n : Nat) : List Char :=
  if n < 10 then [digitChar n] else decimal (n / 10) ++ [digitChar (n % 10)]

/-- The number a list of decimal digits denotes. -/
def digitsValue (ds : List Char) : Nat :=
  ds.foldl (fun a c => a * 10 + (c.toNat - 48)) 0

/-- A JSON integer: an optional minus sign and decimal digits. -/
def encodeInt (i : Int) : List Char :=
  if i < 0 then '-' :: decimal i.natAbs else decimal i.natAbs

/-- Read decimal digits off the front of the text. -/
def readNat (l : List Char) : Option (Nat × List Char) :=
  let ds := l.takeWhile isDigit
  if ds = [] then none else some (digitsValue ds, l.dropWhile isDigit)

/-- Read a JSON integer off the front of the text. -/
def readInt : List Char → Option (Int × List Char)
  | [] => none
  | c :: r =>
    if c = '-' then (readNat r).map fun p => (-(p.1 : Int), p.2)
    else (readNat (c :: r)).map fun p => ((p.1 : Int), p.2)

/-- Remove the prefix `p` from the front of the text, if it is there. -/
def dropPrefix : List Char → List Char → Option (List Char)
  | [], l => some l
  | _ :: _, [] => none
  | p :: ps, c :: cs => if p = c then dropPrefix ps cs else none

/-- The text that opens the object, up to the value of `Lease`. -/
def leaseField : List Char := "\x7b\"Lease\":".data

/-- The text between the two values. -/
def leaseMaxField : List Char := ",\"LeaseMax\":".data

/-- The record as a JSON object with the fields `Lease` and `LeaseMax`. -/
def jsonMarshal (c : configLease) : Except String String :=
  .ok (String.mk (leaseField ++ (encodeInt c.Lease ++
    (leaseMaxField ++ (encodeInt c.LeaseMax ++ ['}'])))))

/-- Decode a JSON object of the shape `jsonMarshal` writes. -/
def jsonUnmarshal (b : String) : Except String configLease :=
  match dropPrefix leaseField b.data with
  | none => .error "invalid character looking for beginning of value"
  | some r1 =>
    match readInt r1 with
    | none => .error "cannot unmarshal into Go struct field configLease.Lease"
    | some (lease, r2) =>
      match dropPrefix leaseMaxField r2 with
      | none => .error "unexpected end of JSON input"
      | some r3 =>
        match readInt r3 with
        | none => .error "cannot unmarshal into Go struct field configLease.LeaseMax"
        | some (leaseMax, r4) =>
          if r4 = ['}'] then .ok { Lease := lease, LeaseMax := leaseMax }
          else .error "invalid character after top-level value"

/-- The reference environment. -/
def refCollab : Collab MemStorage :=
  { ParseDuration := ParseDuration fracExact
    Marshal := jsonMarshal
    Unmarshal := jsonUnmarshal
    Get := MemStorage.Get
    Put := MemStorage.Put }

/-- The reference environment with a storage whose `Put` fails with `err` and
stores nothing. -/
def failingPut (err : String) : Collab MemStorage :=
  { refCollab with Put := fun s _ => (s, some err) }

/-- The reference environment with a storage whose `Get` fails with `err`. -/
def failingGet (err : String) : Collab MemStorage :=
  { refCollab with Get := fun _ _ => .error err }

/-- The reference environment with an encoder that fails with `err`. -/
def failingMarshal (err : String) : Collab MemStorage :=
  { refCollab with Marshal := fun _ => .error err }

/-- A world over the in-memory storage: a record is stored under
`"config/lease"`, no call has been made yet, and one `configLease` record exists
already. -/
def exampleWorld : World MemStorage :=
  { storage := [{ Key := "config/lease", Value := "\x7b\"Lease\":5,\"LeaseMax\":7\x7d" }]
    calls := []
    heap := [{ Lease := 1, LeaseMax := 2 }] }

/-! ## Texts of a magnitude and a unit -/

/-- The text of the magnitude `n`, in decimal, followed by the unit `u`. -/
def magnitudeWithUnit (n : Nat) (u : String) : String :=
  String.mk (decimal n ++ u.data)

/-- The text `u` is a unit the parser does not know: it is non-empty, has no
digit and no period (so that the parser reads it as one unit), and is not in
`unitMap`. -/
def UnknownUnit (u : String) : Prop :=
  u.data ≠ [] ∧ (∀ c ∈ u.data, (c = '.' || isDigit c) = false) ∧ unitMap.lookup u = none

/-- The text is a sequence of magnitude+unit pairs: each magnitude is a
non-empty run of digits and periods, each unit a non-empty run of other
characters that is a name of `unitMap`. -/
inductive UnitPairs : List Char → Prop where
  | nil : UnitPairs []
  | pair (mag u rest : List Char) :
      mag ≠ [] → (∀ c ∈ mag, (c = '.' || isDigit c) = true) →
      u ≠ [] → (∀ c ∈ u, (c = '.' || isDigit c) = false) →
      (unitMap.lookup (String.mk u)).isSome = true →
      UnitPairs rest → UnitPairs (mag ++ (u ++ rest))

/-- The grammar of the texts the parser accepts: after an optional sign, the
bare `0` or one or more magnitude+unit pairs with units of `unitMap`. -/
def DurationText (l : List Char) : Prop :=
  ∃ body, (l = body ∨ l = '-' :: body ∨ l = '+' :: body) ∧
    (body = ['0'] ∨ (body ≠ [] ∧ UnitPairs body))

/-! ## The reference environment meets the contracts -/

theorem digitChar_toNat (d : Nat) (h : d < 10) : (digitChar d).toNat = 48 + d := by
  interval_cases d <;> rfl

theorem isDigit_digitChar (d : Nat) (h : d < 10) : isDigit (digitChar d) = true := by
  interval_cases d <;> rfl

theorem digitChar_ne_minus (d : Nat) (h : d < 10) : digitChar d ≠ '-' := by
  interval_cases d <;> decide

theorem decimal_isDigit (n : Nat) : ∀ c ∈ decimal n, isDigit c = true := by
  induction n using Nat.strong_induction_on with
  | _ n ih =>
    intro c hc
    rw [decimal] at hc
    by_cases h : n < 10
    · simp only [h, if_true, List.mem_singleton] at hc
      subst hc
      exact isDigit_digitChar n h
    · simp only [h, if_false, List.mem_append, List.mem_singleton] at hc
      rcases hc with hc | hc
      · exact ih (n / 10) (by omega) c hc
      · subst hc
        exact isDigit_digitChar _ (Nat.mod_lt _ (by decide))

theorem decimal_head (n : Nat) : ∃ c cs, decimal n = c :: cs ∧ c ≠ '-' := by
  induction n using Nat.strong_induction_on with
  | _ n ih =>
    rw [decimal]
    by_cases h : n < 10
    · exact ⟨digitChar n, [], by simp [h], digitChar_ne_minus n h⟩
    · obtain ⟨c, cs, hcs, hc⟩ := ih (n / 10) (by omega)
      exact ⟨c, cs ++ [digitChar (n % 10)], by simp [h, hcs], hc⟩

theorem digitsValue_snoc (l : List Char) (c : Char) :
    digitsValue (l ++ [c]) = digitsValue l * 10 + (c.toNat - 48) := by
  simp [digitsValue, List.foldl_append]

theorem digitsValue_decimal (n : Nat) : digitsValue (decimal n) = n := by
  induction n using Nat.strong_induction_on with
  | _ n ih =>
    rw [decimal]
    by_cases h : n < 10
    · simp only [h, if_true, digitsValue, List.foldl, digitChar_toNat n h]
      omega
    · simp only [h, if_false, digitsValue_snoc, ih (n / 10) (by omega),
        digitChar_toNat _ (Nat.mod_lt n (by decide : 0 < 10))]
      omega

theorem takeWhile_digits (ds : List Char) (c : Char) (rest : List Char)
    (hds : ∀ x ∈ ds, isDigit x = true) (hc : isDigit c = false) :
    (ds ++ c :: rest).takeWhile isDigit = ds ∧ (ds ++ c :: rest).dropWhile isDigit = c :: rest := by
  induction ds with
  | nil => simp [List.takeWhile, List.dropWhile, hc]
  | cons x xs ih =>
    have hx : isDigit x = true := hds x (List.mem_cons_self _ _)
    have := ih fun y hy => hds y (List.mem_cons_of_mem _ hy)
    simp [List.takeWhile, List.dropWhile, hx, this]

theorem readNat_decimal (n : Nat) (c : Char) (rest : List Char) (hc : isDigit c = false) :
    readNat (decimal n ++ c :: rest) = some (n, c :: rest) := by
  obtain ⟨h1, h2⟩ := takeWhile_digits (decimal n) c rest (decimal_isDigit n) hc
  obtain ⟨x, xs, hx, _⟩ := decimal_head n
  have hne : decimal n ≠ [] := by simp [hx]
  simp only [readNat, h1, h2, hne, if_false, digitsValue_decimal]

theorem readInt_encodeInt (i : Int) (c : Char) (rest : List Char) (hc : isDigit c = false) :
    readInt (encodeInt i ++ c :: rest) = some (i, c :: rest) := by
  unfold encodeInt
  by_cases hi : i < 0
  · have : -((i.natAbs : Nat) : Int) = i := by omega
    simp only [hi, if_true, List.cons_append, readInt, readNat_decimal _ c rest hc, Option.map,
      this]
  · obtain ⟨x, xs, hx, hxm⟩ := decimal_head i.natAbs
    have h := readNat_decimal i.natAbs c rest hc
    rw [hx] at h
    have : ((i.natAbs : Nat) : Int) = i := by omega
    simp only [hi, if_false, hx, List.cons_append, readInt, hxm] at h ⊢
    simp only [h, Option.map, this]

theorem dropPrefix_append (p r : List Char) : dropPrefix p (p ++ r) = some r := by
  induction p with
  | nil => cases r <;> rfl
  | cons x xs ih => simp [dropPrefix, ih]

theorem jsonUnmarshal_jsonMarshal (c : configLease) (b : String)
    (h : jsonMarshal c = .ok b) : jsonUnmarshal b = .ok c := by
  simp only [jsonMarshal, Except.ok.injEq] at h
  subst h
  have h1 : readInt (encodeInt c.Lease ++ (leaseMaxField ++ (encodeInt c.LeaseMax ++ ['}'])))
      = some (c.Lease, leaseMaxField ++ (encodeInt c.LeaseMax ++ ['}'])) :=
    readInt_encodeInt c.Lease ',' _ (by decide)
  have h2 : readInt (encodeInt c.LeaseMax ++ ['}']) = some (c.LeaseMax, ['}']) :=
    readInt_encodeInt c.LeaseMax '}' [] (by decide)
  simp only [jsonUnmarshal, dropPrefix_append, h1, h2, if_true]

theorem refCollab_roundTrip : refCollab.RoundTrip :=
  fun c b h => jsonUnmarshal_jsonMarshal c b h

theorem refCollab_encodes : refCollab.Encodes :=
  fun _ => ⟨_, rfl⟩

theorem refCollab_readAfterWrite : refCollab.ReadAfterWrite := by
  intro s e _
  simp [refCollab, MemStorage.Get, MemStorage.Put]

theorem find_filter_other (s : MemStorage) (k k' : String) (h : k ≠ k') :
    (s.filter fun x => x.Key != k').find? (fun e => e.Key == k) = s.find? fun e => e.Key == k := by
  induction s with
  | nil => rfl
  | cons x xs ih =>
    by_cases hx : x.Key = k'
    · have hk : (x.Key == k) = false := by
        simpa using fun hk : x.Key = k => h (hk ▸ hx)
      have hx' : (x.Key != k') = false := by simpa using hx
      rw [List.filter_cons, List.find?_cons]
      simp only [hx', hk, ih, Bool.false_eq_true, if_false]
    · have hx' : (x.Key != k') = true := by simpa using hx
      rw [List.filter_cons]
      simp only [hx', if_true, List.find?_cons, ih]

theorem refCollab_putFrame : refCollab.PutFrame := by
  intro s e k _ hk
  have hk' : (e.Key == k) = false := by simpa using fun h => hk h.symm
  simp only [refCollab, MemStorage.Get, MemStorage.Put, List.find?, hk', Except.ok.injEq]
  exact find_filter_other s k e.Key hk

/-! ## The parser's loop terminates within its fuel -/

theorem leadingIntFrom_length (s : List Char) :
    ∀ (x v : Nat) (s1 : List Char), leadingIntFrom x s = some (v, s1) → s1.length ≤ s.length := by
  induction s with
  | nil =>
    intro x v s1 h
    simp only [leadingIntFrom, Option.some.injEq, Prod.mk.injEq] at h
    rw [← h.2]
  | cons c cs ih =>
    intro x v s1 h
    rw [leadingIntFrom] at h
    split at h
    · simp only [Option.some.injEq, Prod.mk.injEq] at h
      rw [← h.2]
    · split at h
      · cases h
      · simp only at h
        split at h
        · cases h
        · exact Nat.le_succ_of_le (ih _ v s1 h)

theorem leadingFractionFrom_length (s : List Char) :
    ∀ (x scale : Nat) (o : Bool), (leadingFractionFrom x scale o s).2.2.length ≤ s.length := by
  induction s with
  | nil => intro x scale o; simp [leadingFractionFrom]
  | cons c cs ih =>
    intro x scale o
    rw [leadingFractionFrom]
    split
    · exact Nat.le_refl _
    · split
      · exact Nat.le_succ_of_le (ih _ _ _)
      · split
        · exact Nat.le_succ_of_le (ih _ _ _)
        · simp only
          split
          · exact Nat.le_succ_of_le (ih _ _ _)
          · exact Nat.le_succ_of_le (ih _ _ _)

theorem optionalFraction_length (s1 : List Char) :
    (optionalFraction s1).2.2.1.length ≤ s1.length := by
  unfold optionalFraction
  split
  · rename_i r
    have := leadingFractionFrom_length r 0 1 false
    simp only [leadingFraction, List.length_cons] at this ⊢
    omega
  · exact Nat.le_refl _

theorem dropWhile_shorter (p : Char → Bool) (l : List Char) (h : (l.takeWhile p).length ≠ 0) :
    (l.dropWhile p).length < l.length := by
  have := congrArg List.length (List.takeWhile_append_dropWhile p l)
  rw [List.length_append] at this
  omega

theorem parseRound_shorter (frac : Nat → Nat → Nat → Nat) (orig : String) (c : Char)
    (cs : List Char) (d d1 : Nat) (s3 : List Char)
    (h : parseRound frac orig c cs d = .ok (d1, s3)) : s3.length < (c :: cs).length := by
  unfold parseRound at h
  split at h
  · cases h
  · split at h
    · cases h
    · rename_i v s1 hli
      have h1 : s1.length ≤ (c :: cs).length := leadingIntFrom_length _ 0 v s1 hli
      simp only at h
      split at h
      · cases h
      · split at h
        · cases h
        · rename_i hu
          split at h
          · cases h
          · split at h
            · cases h
            · split at h
              · cases h
              · split at h
                · cases h
                · simp only [Except.ok.injEq, Prod.mk.injEq] at h
                  rw [← h.2]
                  exact Nat.lt_of_lt_of_le (dropWhile_shorter _ _ hu)
                    (Nat.le_trans (optionalFraction_length s1) h1)

theorem parseLoop_fuel (frac : Nat → Nat → Nat → Nat) (orig : String) :
    ∀ (fuel : Nat) (s : List Char) (d : Nat), s.length ≤ fuel →
      parseLoop frac orig fuel s d = parseLoop frac orig s.length s d := by
  intro fuel
  induction fuel using Nat.strong_induction_on with
  | _ fuel ih =>
    intro s d hs
    cases s with
    | nil => cases fuel <;> rfl
    | cons c cs =>
      cases fuel with
      | zero => simp at hs
      | succ n =>
        rw [List.length_cons, parseLoop, parseLoop]
        cases hr : parseRound frac orig c cs d with
        | error err => rfl
        | ok p =>
          obtain ⟨d1, s3⟩ := p
          have hlt := parseRound_shorter frac orig c cs d d1 s3 hr
          rw [List.length_cons] at hlt hs
          simp only
          rw [ih n (Nat.lt_succ_self n) s3 d1 (by omega),
            ih cs.length (by omega) s3 d1 (by omega)]

/-! ## The paths through `pathConfigLeaseWrite` and `Lease` -/

theorem write_missing_lease (E : Collab σ) (s : σ) (d : FieldData) (h : d.Get "lease" = "") :
    pathConfigLeaseWrite E s d = (s, some (ErrorResponse "Missing lease"), none) := by
  simp [pathConfigLeaseWrite, h]

theorem write_missing_leaseMax (E : Collab σ) (s : σ) (d : FieldData)
    (h1 : d.Get "lease" ≠ "") (h2 : d.Get "lease_max" = "") :
    pathConfigLeaseWrite E s d = (s, some (ErrorResponse "Missing lease_max"), none) := by
  simp [pathConfigLeaseWrite, h1, h2]

theorem write_invalid_lease (E : Collab σ) (s : σ) (d : FieldData) (err : String)
    (h1 : d.Get "lease" ≠ "") (h2 : d.Get "lease_max" ≠ "")
    (hp : E.ParseDuration (d.Get "lease") = .error err) :
    pathConfigLeaseWrite E s d = (s, some (ErrorResponse ("Invalid 'lease': " ++ err)), none) := by
  simp [pathConfigLeaseWrite, h1, h2, hp]

theorem write_invalid_leaseMax (E : Collab σ) (s : σ) (d : FieldData) (lease : Duration)
    (err : String) (h1 : d.Get "lease" ≠ "") (h2 : d.Get "lease_max" ≠ "")
    (hp1 : E.ParseDuration (d.Get "lease") = .ok lease)
    (hp2 : E.ParseDuration (d.Get "lease_max") = .error err) :
    pathConfigLeaseWrite E s d =
      (s, some (ErrorResponse ("Invalid 'lease_max': " ++ err)), none) := by
  simp [pathConfigLeaseWrite, h1, h2, hp1, hp2]

theorem write_encode_error (E : Collab σ) (s : σ) (d : FieldData) (d1 d2 : Duration)
    (err : String) (hv : ValidInput E d d1 d2)
    (henc : E.Marshal { Lease := d1, LeaseMax := d2 } = .error err) :
    pathConfigLeaseWrite E s d =
      (s, none, some ("could not create storage entry JSON: " ++ err)) := by
  obtain ⟨h1, h2, hp1, hp2⟩ := hv
  simp [pathConfigLeaseWrite, StorageEntryJSON, h1, h2, hp1, hp2, henc]

theorem write_put_error (E : Collab σ) (s : σ) (d : FieldData) (d1 d2 : Duration)
    (b err : String) (hv : ValidInput E d d1 d2)
    (henc : E.Marshal { Lease := d1, LeaseMax := d2 } = .ok b)
    (hput : (E.Put s { Key := "config/lease", Value := b }).2 = some err) :
    pathConfigLeaseWrite E s d =
      ((E.Put s { Key := "config/lease", Value := b }).1, none,
        some ("could not store JSON: " ++ err)) := by
  obtain ⟨h1, h2, hp1, hp2⟩ := hv
  rcases hP : E.Put s { Key := "config/lease", Value := b } with ⟨s', r⟩
  rw [hP] at hput
  simp only at hput
  subst hput
  simp [pathConfigLeaseWrite, StorageEntryJSON, h1, h2, hp1, hp2, henc, hP]

theorem write_put_ok (E : Collab σ) (s : σ) (d : FieldData) (d1 d2 : Duration)
    (b : String) (hv : ValidInput E d d1 d2)
    (henc : E.Marshal { Lease := d1, LeaseMax := d2 } = .ok b)
    (hput : (E.Put s { Key := "config/lease", Value := b }).2 = none) :
    pathConfigLeaseWrite E s d =
      ((E.Put s { Key := "config/lease", Value := b }).1, none, none) := by
  obtain ⟨h1, h2, hp1, hp2⟩ := hv
  rcases hP : E.Put s { Key := "config/lease", Value := b } with ⟨s', r⟩
  rw [hP] at hput
  simp only at hput
  subst hput
  simp [pathConfigLeaseWrite, StorageEntryJSON, h1, h2, hp1, hp2, henc, hP]

theorem write_invalid (E : Collab σ) (s : σ) (d : FieldData) (h : InvalidInput E d) :
    ∃ msg, pathConfigLeaseWrite E s d = (s, some (ErrorResponse msg), none) := by
  by_cases h1 : d.Get "lease" = ""
  · exact ⟨_, write_missing_lease E s d h1⟩
  by_cases h2 : d.Get "lease_max" = ""
  · exact ⟨_, write_missing_leaseMax E s d h1 h2⟩
  cases hp1 : E.ParseDuration (d.Get "lease") with
  | error err => exact ⟨_, write_invalid_lease E s d err h1 h2 hp1⟩
  | ok lease =>
    cases hp2 : E.ParseDuration (d.Get "lease_max") with
    | error err => exact ⟨_, write_invalid_leaseMax E s d lease err h1 h2 hp1 hp2⟩
    | ok leaseMax =>
      rcases h with h | h | ⟨e, h⟩ | ⟨e, h⟩
      · exact absurd h h1
      · exact absurd h h2
      · rw [hp1] at h; cases h
      · rw [hp2] at h; cases h

theorem valid_or_invalid (E : Collab σ) (d : FieldData) :
    (∃ d1 d2, ValidInput E d d1 d2) ∨ InvalidInput E d := by
  by_cases h1 : d.Get "lease" = ""
  · exact .inr (.inl h1)
  by_cases h2 : d.Get "lease_max" = ""
  · exact .inr (.inr (.inl h2))
  cases hp1 : E.ParseDuration (d.Get "lease") with
  | error err => exact .inr (.inr (.inr (.inl ⟨err, hp1⟩)))
  | ok lease =>
    cases hp2 : E.ParseDuration (d.Get "lease_max") with
    | error err => exact .inr (.inr (.inr (.inr ⟨err, hp2⟩)))
    | ok leaseMax => exact .inl ⟨lease, leaseMax, h1, h2, hp1, hp2⟩

theorem not_valid_and_invalid (E : Collab σ) (d : FieldData) (d1 d2 : Duration)
    (hv : ValidInput E d d1 d2) : ¬ InvalidInput E d := by
  obtain ⟨h1, h2, hp1, hp2⟩ := hv
  rintro (h | h | ⟨e, h⟩ | ⟨e, h⟩)
  · exact h1 h
  · exact h2 h
  · rw [hp1] at h; cases h
  · rw [hp2] at h; cases h

theorem lease_get_error (E : Collab σ) (s : σ) (err : String)
    (h : E.Get s "config/lease" = .error err) : Lease E s = (none, some err) := by
  simp [Lease, h]

theorem lease_absent (E : Collab σ) (s : σ) (h : E.Get s "config/lease" = .ok none) :
    Lease E s = (none, none) := by
  simp [Lease, h]

theorem lease_decode_error (E : Collab σ) (s : σ) (entry : StorageEntry) (err : String)
    (h : E.Get s "config/lease" = .ok (some entry)) (hd : E.Unmarshal entry.Value = .error err) :
    Lease E s = (none, some err) := by
  simp [Lease, h, StorageEntry.DecodeJSON, hd]

theorem lease_decoded (E : Collab σ) (s : σ) (entry : StorageEntry) (c : configLease)
    (h : E.Get s "config/lease" = .ok (some entry)) (hd : E.Unmarshal entry.Value = .ok c) :
    Lease E s = (some c, none) := by
  simp [Lease, h, StorageEntry.DecodeJSON, hd]

theorem lease_after_put (E : Collab σ) (hRW : E.ReadAfterWrite) (hRT : E.RoundTrip) (s : σ)
    (c : configLease) (b : String) (henc : E.Marshal c = .ok b)
    (hput : (E.Put s { Key := "config/lease", Value := b }).2 = none) :
    Lease E (E.Put s { Key := "config/lease", Value := b }).1 = (some c, none) :=
  lease_decoded E _ { Key := "config/lease", Value := b } c (hRW s _ hput) (hRT c b henc)

theorem refCollab_failedPutKeeps : refCollab.FailedPutKeeps := by
  intro s e k h
  exact absurd rfl h

theorem failed_write_keeps (E : Collab σ) (hK : E.FailedPutKeeps) (s : σ) (d : FieldData)
    (h : (pathConfigLeaseWrite E s d).2 ≠ (none, none)) (k : String) :
    E.Get (pathConfigLeaseWrite E s d).1 k = E.Get s k := by
  rcases valid_or_invalid E d with ⟨d1, d2, hv⟩ | hi
  · cases henc : E.Marshal { Lease := d1, LeaseMax := d2 } with
    | error err => rw [write_encode_error E s d d1 d2 err hv henc]
    | ok b =>
      cases hput : (E.Put s { Key := "config/lease", Value := b }).2 with
      | none =>
        rw [write_put_ok E s d d1 d2 b hv henc hput] at h
        exact absurd rfl h
      | some err =>
        rw [write_put_error E s d d1 d2 b err hv henc hput]
        exact hK s _ k (by rw [hput]; simp)
  · obtain ⟨msg, hm⟩ := write_invalid E s d hi
    rw [hm]

theorem failed_writes_keep (E : Collab σ) (hK : E.FailedPutKeeps) (ds : List FieldData) :
    ∀ s : σ, NoneSucceeded E s ds → ∀ k, E.Get (writes E s ds) k = E.Get s k := by
  induction ds with
  | nil => intro s _ k; rfl
  | cons d ds ih =>
    intro s h k
    rw [writes, ih _ h.2 k, failed_write_keeps E hK s d h.1 k]

theorem refCollab_write_then_lease (s : MemStorage) (d : FieldData) (d1 d2 : Duration)
    (hv : ValidInput refCollab d d1 d2) :
    (pathConfigLeaseWrite refCollab s d).2 = (none, none) ∧
    Lease refCollab (pathConfigLeaseWrite refCollab s d).1
      = (some { Lease := d1, LeaseMax := d2 }, none) := by
  obtain ⟨b, henc⟩ := refCollab_encodes { Lease := d1, LeaseMax := d2 }
  have hw := write_put_ok refCollab s d d1 d2 b hv henc rfl
  rw [hw]
  exact ⟨rfl, lease_after_put refCollab refCollab_readAfterWrite refCollab_roundTrip s _ b
    henc rfl⟩

/-! ## The standard-library parser at the inputs the specification names -/

theorem parse_1h (frac : Nat → Nat → Nat → Nat) :
    ParseDuration frac "1h" = .ok 3600000000000 :=
  of_decide_eq_true (Eq.refl true)

theorem parse_24h (frac : Nat → Nat → Nat → Nat) :
    ParseDuration frac "24h" = .ok 86400000000000 :=
  of_decide_eq_true (Eq.refl true)

theorem parse_1h30m (frac : Nat → Nat → Nat → Nat) :
    ParseDuration frac "1h30m" = .ok 5400000000000 :=
  of_decide_eq_true (Eq.refl true)

theorem parse_zero (frac : Nat → Nat → Nat → Nat) : ParseDuration frac "0" = .ok 0 :=
  of_decide_eq_true (Eq.refl true)

theorem parse_0s (frac : Nat → Nat → Nat → Nat) : ParseDuration frac "0s" = .ok 0 :=
  of_decide_eq_true (Eq.refl true)

theorem parse_minus_1h (frac : Nat → Nat → Nat → Nat) :
    ParseDuration frac "-1h" = .ok (-3600000000000) :=
  of_decide_eq_true (Eq.refl true)

theorem parse_notaduration (frac : Nat → Nat → Nat → Nat) :
    ParseDuration frac "notaduration" = .error "time: invalid duration \"notaduration\"" :=
  of_decide_eq_true (Eq.refl true)

theorem parse_1d (frac : Nat → Nat → Nat → Nat) :
    ParseDuration frac "1d" = .error "time: unknown unit \"d\" in duration \"1d\"" :=
  of_decide_eq_true (Eq.refl true)

/-! ## The four validation messages are pairwise different -/

theorem ErrorResponse_injective (a b : String) (h : ErrorResponse a = ErrorResponse b) :
    a = b := by
  simpa [ErrorResponse] using h

theorem missing_lease_ne_missing_leaseMax : "Missing lease" ≠ "Missing lease_max" := by
  decide

theorem missing_ne_invalid (m f err : String) (hm : m.data.head? = some 'M')
    (hf : f.data.head? = some 'I') : m ≠ f ++ err := by
  intro h
  have h2 := congrArg (fun t => t.data.head?) h
  simp only [String.data_append] at h2
  cases hd : f.data with
  | nil => rw [hd] at hf; cases hf
  | cons c cs =>
    rw [hd] at hf h2
    rw [hm] at h2
    simp only [List.cons_append, List.head?_cons, Option.some.injEq] at hf h2
    subst hf
    exact absurd h2 (by decide)

theorem invalid_lease_ne_invalid_leaseMax (e1 e2 : String) :
    "Invalid 'lease': " ++ e1 ≠ "Invalid 'lease_max': " ++ e2 := by
  intro h
  have h2 := congrArg String.data h
  simp only [String.data_append] at h2
  have h3 := congrArg (fun l => l.get? 14) h2
  simp at h3

/-! ## The claims -/

/-- C1 (round trip).  For every storage state, when both fields are non-empty
and the parser accepts them as `d1` and `d2`, the record encodes and the storage
`Put` succeeds, `pathConfigLeaseWrite` followed by `Lease` on the resulting
storage returns the record with `Lease = d1` and `LeaseMax = d2` and a nil error.
The storage is assumed read-after-write consistent and the encoding round-trip
faithful.  With the standard-library parser, `lease = "1h"` and
`lease_max = "24h"` read back as 1h and 24h (in nanoseconds), and the multi-unit
form `"1h30m"` reads back as 5400 s exactly. -/
theorem write_then_lease_round_trip (E : Collab σ) (hRW : E.ReadAfterWrite)
    (hRT : E.RoundTrip) (s : σ) (d : FieldData) (d1 d2 : Duration) (b : String)
    (hv : ValidInput E d d1 d2)
    (henc : E.Marshal { Lease := d1, LeaseMax := d2 } = .ok b)
    (hput : (E.Put s { Key := "config/lease", Value := b }).2 = none) :
    Lease E (pathConfigLeaseWrite E s d).1 = (some { Lease := d1, LeaseMax := d2 }, none) ∧
    ∀ frac, E.ParseDuration = ParseDuration frac →
      (d.Get "lease" = "1h" → d.Get "lease_max" = "24h" →
        d1 = 3600000000000 ∧ d2 = 86400000000000) ∧
      (d.Get "lease" = "1h30m" → d1 = 5400000000000) ∧
      (d.Get "lease_max" = "1h30m" → d2 = 5400000000000) := by
  refine ⟨?_, ?_⟩
  · rw [write_put_ok E s d d1 d2 b hv henc hput]
    exact lease_after_put E hRW hRT s _ b henc hput
  · intro frac hP
    obtain ⟨_, _, hp1, hp2⟩ := hv
    rw [hP] at hp1 hp2
    refine ⟨?_, ?_, ?_⟩
    · intro hl hm
      rw [hl, parse_1h] at hp1
      rw [hm, parse_24h] at hp2
      exact ⟨(Except.ok.inj hp1).symm, (Except.ok.inj hp2).symm⟩
    · intro hl
      rw [hl, parse_1h30m] at hp1
      exact (Except.ok.inj hp1).symm
    · intro hm
      rw [hm, parse_1h30m] at hp2
      exact (Except.ok.inj hp2).symm

/-- Witness for C1: on the empty in-memory storage, writing `lease = "1h"`,
`lease_max = "24h"` and reading back yields 1h and 24h. -/
theorem write_then_lease_round_trip_witness :
    Lease refCollab
        (pathConfigLeaseWrite refCollab [] { Raw := [("lease", "1h"), ("lease_max", "24h")] }).1
      = (some { Lease := 3600000000000, LeaseMax := 86400000000000 }, none) :=
  (write_then_lease_round_trip refCollab refCollab_readAfterWrite refCollab_roundTrip []
    { Raw := [("lease", "1h"), ("lease_max", "24h")] } 3600000000000 86400000000000 _
    ⟨by decide, by decide, parse_1h fracExact, parse_24h fracExact⟩ rfl rfl).1

/-- C2 (unconfigured is not an error).  When the storage holds no entry at
`"config/lease"`, `Lease` returns a nil record and a nil error.  In particular
this is so on a storage that held no entry at first and on which no write has
succeeded since, a failed `Put` having stored nothing. -/
theorem lease_unconfigured (E : Collab σ) (s : σ)
    (h : E.Get s "config/lease" = .ok none) :
    Lease E s = (none, none) ∧
    (E.FailedPutKeeps → ∀ ds, NoneSucceeded E s ds → Lease E (writes E s ds) = (none, none)) := by
  refine ⟨lease_absent E s h, fun hK ds hds => lease_absent E _ ?_⟩
  rw [failed_writes_keep E hK ds s hds, h]

/-- Witness for C2: the empty in-memory storage, before any write. -/
theorem lease_unconfigured_witness : Lease refCollab [] = (none, none) :=
  (lease_unconfigured refCollab [] rfl).1

/-- C3 (full replacement).  After two successive successful writes with valid
inputs `(a1, m1)` then `(a2, m2)`, `Lease` returns exactly the record of
`(a2, m2)`.  The entry a successful write stores is the encoding of its own parsed
inputs under `"config/lease"`, whatever the storage held before; and writing the same
valid inputs twice leaves every key of the storage reading as after writing them
once. -/
theorem second_write_replaces_first (E : Collab σ) (hRW : E.ReadAfterWrite)
    (hRT : E.RoundTrip) (hF : E.PutFrame) (s : σ) (da db : FieldData)
    (a1 m1 a2 m2 : Duration) (b1 b2 : String)
    (hva : ValidInput E da a1 m1) (hvb : ValidInput E db a2 m2)
    (henc1 : E.Marshal { Lease := a1, LeaseMax := m1 } = .ok b1)
    (henc2 : E.Marshal { Lease := a2, LeaseMax := m2 } = .ok b2)
    (hput1 : (E.Put s { Key := "config/lease", Value := b1 }).2 = none)
    (hput2 : (E.Put (E.Put s { Key := "config/lease", Value := b1 }).1
      { Key := "config/lease", Value := b2 }).2 = none) :
    Lease E (pathConfigLeaseWrite E (pathConfigLeaseWrite E s da).1 db).1
        = (some { Lease := a2, LeaseMax := m2 }, none) ∧
    (∀ t : σ, (E.Put t { Key := "config/lease", Value := b2 }).2 = none →
      pathConfigLeaseWrite E t db = ((E.Put t { Key := "config/lease", Value := b2 }).1, none, none) ∧
      Lease E (pathConfigLeaseWrite E t db).1 = (some { Lease := a2, LeaseMax := m2 }, none)) ∧
    (da = db → ∀ k, E.Get (pathConfigLeaseWrite E (pathConfigLeaseWrite E s da).1 db).1 k
        = E.Get (pathConfigLeaseWrite E s da).1 k) := by
  have hw1 := write_put_ok E s da a1 m1 b1 hva henc1 hput1
  have hw2 := write_put_ok E (E.Put s { Key := "config/lease", Value := b1 }).1 db a2 m2 b2
    hvb henc2 hput2
  refine ⟨?_, ?_, ?_⟩
  · rw [hw1, hw2]
    exact lease_after_put E hRW hRT _ _ b2 henc2 hput2
  · intro t ht
    have hwt := write_put_ok E t db a2 m2 b2 hvb henc2 ht
    refine ⟨hwt, ?_⟩
    rw [hwt]
    exact lease_after_put E hRW hRT t _ b2 henc2 ht
  · intro hd k
    subst hd
    obtain ⟨_, _, hp1, hp2⟩ := hva
    obtain ⟨_, _, hq1, hq2⟩ := hvb
    have ha : a2 = a1 := Except.ok.inj (hq1.symm.trans hp1)
    have hm : m2 = m1 := Except.ok.inj (hq2.symm.trans hp2)
    subst ha hm
    have hb : b2 = b1 := Except.ok.inj (henc2.symm.trans henc1)
    subst hb
    rw [hw1, hw2]
    by_cases hk : k = "config/lease"
    · subst hk
      rw [hRW _ { Key := "config/lease", Value := b2 } hput2,
        hRW s { Key := "config/lease", Value := b2 } hput1]
    · exact hF _ _ k hput2 hk

/-- Witness for C3: on the in-memory storage, `("1h", "24h")` then
`("1h30m", "24h")` leaves exactly the second record. -/
theorem second_write_replaces_first_witness :
    Lease refCollab
        (pathConfigLeaseWrite refCollab
          (pathConfigLeaseWrite refCollab []
            { Raw := [("lease", "1h"), ("lease_max", "24h")] }).1
          { Raw := [("lease", "1h30m"), ("lease_max", "24h")] }).1
      = (some { Lease := 5400000000000, LeaseMax := 86400000000000 }, none) :=
  (second_write_replaces_first refCollab refCollab_readAfterWrite refCollab_roundTrip
    refCollab_putFrame [] { Raw := [("lease", "1h"), ("lease_max", "24h")] }
    { Raw := [("lease", "1h30m"), ("lease_max", "24h")] }
    3600000000000 86400000000000 5400000000000 86400000000000 _ _
    ⟨by decide, by decide, parse_1h fracExact, parse_24h fracExact⟩
    ⟨by decide, by decide, parse_1h30m fracExact, parse_24h fracExact⟩ rfl rfl rfl rfl).1

/-- C4 (no mutation on validation failure).  For every storage state, when
`lease` is empty, or `lease_max` is empty, or either fails to parse,
`pathConfigLeaseWrite` returns the storage it was given, so `Lease` afterwards
returns what it returned before; and the outcome is the same whatever the
storage `Put` would do, that is, no `Put` is performed. -/
theorem no_mutation_on_validation_failure (E : Collab σ) (s : σ) (d : FieldData)
    (h : InvalidInput E d) :
    (pathConfigLeaseWrite E s d).1 = s ∧
    Lease E (pathConfigLeaseWrite E s d).1 = Lease E s ∧
    ∀ put : σ → StorageEntry → σ × Option String,
      pathConfigLeaseWrite { E with Put := put } s d = pathConfigLeaseWrite E s d := by
  obtain ⟨msg, hm⟩ := write_invalid E s d h
  refine ⟨by rw [hm], by rw [hm], fun put => ?_⟩
  rcases h with h | h | ⟨e, h⟩ | ⟨e, h⟩ <;>
    simp only [pathConfigLeaseWrite, StorageEntryJSON] <;> split <;> try rfl
  all_goals (split <;> try rfl)
  all_goals simp_all

/-- Witness for C4: with a record stored, a write with an empty `lease` leaves
the in-memory storage as it was. -/
theorem no_mutation_on_validation_failure_witness :
    (pathConfigLeaseWrite refCollab [{ Key := "config/lease", Value := "x" }]
      { Raw := [("lease", ""), ("lease_max", "24h")] }).1
      = [{ Key := "config/lease", Value := "x" }] :=
  (no_mutation_on_validation_failure refCollab [{ Key := "config/lease", Value := "x" }]
    { Raw := [("lease", ""), ("lease_max", "24h")] } (.inl (by decide))).1

/-- C5 (success iff valid).  On a storage whose `Put` succeeds, the encoding of
a record never failing, `pathConfigLeaseWrite` returns a nil response and a nil
error if and only if both fields are non-empty and the parser accepts both; in
every other case it returns an error response together with a nil Go error. -/
theorem success_iff_valid (E : Collab σ) (hEnc : E.Encodes) (s : σ)
    (hPut : ∀ e : StorageEntry, (E.Put s e).2 = none) (d : FieldData) :
    ((pathConfigLeaseWrite E s d).2 = (none, none) ↔ ∃ d1 d2, ValidInput E d d1 d2) ∧
    ((¬ ∃ d1 d2, ValidInput E d d1 d2) →
      ∃ msg, (pathConfigLeaseWrite E s d).2 = (some (ErrorResponse msg), none)) := by
  have hinv : InvalidInput E d →
      ∃ msg, (pathConfigLeaseWrite E s d).2 = (some (ErrorResponse msg), none) := by
    intro hi
    obtain ⟨msg, hm⟩ := write_invalid E s d hi
    exact ⟨msg, by rw [hm]⟩
  refine ⟨⟨fun h => ?_, fun ⟨d1, d2, hv⟩ => ?_⟩, fun hn => ?_⟩
  · rcases valid_or_invalid E d with hv | hi
    · exact hv
    · obtain ⟨msg, hm⟩ := hinv hi
      rw [hm] at h
      cases h
  · obtain ⟨b, henc⟩ := hEnc { Lease := d1, LeaseMax := d2 }
    rw [write_put_ok E s d d1 d2 b hv henc (hPut _)]
  · rcases valid_or_invalid E d with hv | hi
    · exact absurd hv hn
    · exact hinv hi

/-- Witness for C5: on the in-memory storage, `("1h", "24h")` succeeds and
`("1h", "1d")` does not. -/
theorem success_iff_valid_witness :
    (pathConfigLeaseWrite refCollab [] { Raw := [("lease", "1h"), ("lease_max", "24h")] }).2
      = (none, none) ∧
    ∃ msg, (pathConfigLeaseWrite refCollab []
      { Raw := [("lease", "1h"), ("lease_max", "1d")] }).2 = (some (ErrorResponse msg), none) :=
  ⟨(success_iff_valid refCollab refCollab_encodes [] (fun _ => rfl)
      { Raw := [("lease", "1h"), ("lease_max", "24h")] }).1.2
      ⟨3600000000000, 86400000000000, by decide, by decide, parse_1h fracExact,
        parse_24h fracExact⟩,
    (success_iff_valid refCollab refCollab_encodes [] (fun _ => rfl)
      { Raw := [("lease", "1h"), ("lease_max", "1d")] }).2
      (fun ⟨_, _, _, _, _, h⟩ => by
        have h1 : refCollab.ParseDuration "1d" = _ := parse_1d fracExact
        exact absurd (h.symm.trans h1) (by simp))⟩

/-- C6 (validation order).  `pathConfigLeaseWrite` reports the first failing
check in the order presence of `lease`, presence of `lease_max`, parse of `lease`,
parse of `lease_max`: an empty `lease` yields "Missing lease" whatever
`lease_max` is; a non-empty `lease` with an empty `lease_max` yields
"Missing lease_max" whether or not `lease` parses; and with both non-empty an
unparseable `lease` is reported whether or not `lease_max` parses, `lease_max`
being reported only when `lease` parses. -/
theorem validation_order (E : Collab σ) (s : σ) (d : FieldData) :
    (d.Get "lease" = "" →
      pathConfigLeaseWrite E s d = (s, some (ErrorResponse "Missing lease"), none)) ∧
    (d.Get "lease" ≠ "" → d.Get "lease_max" = "" →
      pathConfigLeaseWrite E s d = (s, some (ErrorResponse "Missing lease_max"), none)) ∧
    (∀ err, d.Get "lease" ≠ "" → d.Get "lease_max" ≠ "" →
      E.ParseDuration (d.Get "lease") = .error err →
      pathConfigLeaseWrite E s d = (s, some (ErrorResponse ("Invalid 'lease': " ++ err)), none)) ∧
    (∀ lease err, d.Get "lease" ≠ "" → d.Get "lease_max" ≠ "" →
      E.ParseDuration (d.Get "lease") = .ok lease →
      E.ParseDuration (d.Get "lease_max") = .error err →
      pathConfigLeaseWrite E s d =
        (s, some (ErrorResponse ("Invalid 'lease_max': " ++ err)), none)) :=
  ⟨write_missing_lease E s d, write_missing_leaseMax E s d,
    fun err => write_invalid_lease E s d err,
    fun lease err => write_invalid_leaseMax E s d lease err⟩

/-- Witness for C6: with both fields unparseable the response names `lease`. -/
theorem validation_order_witness :
    pathConfigLeaseWrite refCollab [] { Raw := [("lease", "notaduration"), ("lease_max", "1d")] }
      = ([], some (ErrorResponse
          "Invalid 'lease': time: invalid duration \"notaduration\""), none) :=
  (validation_order refCollab [] { Raw := [("lease", "notaduration"), ("lease_max", "1d")] }).2.2.1
    _ (by decide) (by decide) (parse_notaduration fracExact)

/-- C7 (field-identified messages).  The four validation failures give the
responses "Missing lease", "Missing lease_max", "Invalid 'lease': " followed by
the parser's message and "Invalid 'lease_max': " followed by the parser's
message, and these four are pairwise different whatever the parser's messages
are.  With the standard-library parser, `lease = "notaduration"` with a
non-empty `lease_max` yields a response that names the `lease` field and differs
from the "Missing lease" response. -/
theorem field_identified_messages (E : Collab σ) (s : σ) (d : FieldData) :
    (d.Get "lease" = "" →
      (pathConfigLeaseWrite E s d).2 = (some (ErrorResponse "Missing lease"), none)) ∧
    (d.Get "lease" ≠ "" → d.Get "lease_max" = "" →
      (pathConfigLeaseWrite E s d).2 = (some (ErrorResponse "Missing lease_max"), none)) ∧
    (∀ err, d.Get "lease" ≠ "" → d.Get "lease_max" ≠ "" →
      E.ParseDuration (d.Get "lease") = .error err →
      (pathConfigLeaseWrite E s d).2 =
        (some (ErrorResponse ("Invalid 'lease': " ++ err)), none)) ∧
    (∀ lease err, d.Get "lease" ≠ "" → d.Get "lease_max" ≠ "" →
      E.ParseDuration (d.Get "lease") = .ok lease →
      E.ParseDuration (d.Get "lease_max") = .error err →
      (pathConfigLeaseWrite E s d).2 =
        (some (ErrorResponse ("Invalid 'lease_max': " ++ err)), none)) ∧
    (∀ e1 e2 : String,
      ErrorResponse "Missing lease" ≠ ErrorResponse "Missing lease_max" ∧
      ErrorResponse "Missing lease" ≠ ErrorResponse ("Invalid 'lease': " ++ e1) ∧
      ErrorResponse "Missing lease" ≠ ErrorResponse ("Invalid 'lease_max': " ++ e2) ∧
      ErrorResponse "Missing lease_max" ≠ ErrorResponse ("Invalid 'lease': " ++ e1) ∧
      ErrorResponse "Missing lease_max" ≠ ErrorResponse ("Invalid 'lease_max': " ++ e2) ∧
      ErrorResponse ("Invalid 'lease': " ++ e1) ≠
        ErrorResponse ("Invalid 'lease_max': " ++ e2)) ∧
    (∀ frac, E.ParseDuration = ParseDuration frac →
      d.Get "lease" = "notaduration" → d.Get "lease_max" ≠ "" →
      (pathConfigLeaseWrite E s d).2 =
        (some (ErrorResponse ("Invalid 'lease': " ++
          "time: invalid duration \"notaduration\"")), none) ∧
      (pathConfigLeaseWrite E s d).2 ≠ (some (ErrorResponse "Missing lease"), none)) := by
  refine ⟨fun h => ?_, fun h1 h2 => ?_, fun err h1 h2 hp => ?_, fun l err h1 h2 hp1 hp2 => ?_,
    fun e1 e2 => ⟨?_, ?_, ?_, ?_, ?_, ?_⟩, fun frac hP hl hm => ?_⟩
  · rw [write_missing_lease E s d h]
  · rw [write_missing_leaseMax E s d h1 h2]
  · rw [write_invalid_lease E s d err h1 h2 hp]
  · rw [write_invalid_leaseMax E s d l err h1 h2 hp1 hp2]
  · exact fun h => missing_lease_ne_missing_leaseMax (ErrorResponse_injective _ _ h)
  · exact fun h => missing_ne_invalid "Missing lease" "Invalid 'lease': " e1 rfl rfl
      (ErrorResponse_injective _ _ h)
  · exact fun h => missing_ne_invalid "Missing lease" "Invalid 'lease_max': " e2 rfl rfl
      (ErrorResponse_injective _ _ h)
  · exact fun h => missing_ne_invalid "Missing lease_max" "Invalid 'lease': " e1 rfl rfl
      (ErrorResponse_injective _ _ h)
  · exact fun h => missing_ne_invalid "Missing lease_max" "Invalid 'lease_max': " e2 rfl rfl
      (ErrorResponse_injective _ _ h)
  · exact fun h => invalid_lease_ne_invalid_leaseMax e1 e2 (ErrorResponse_injective _ _ h)
  · have hp : E.ParseDuration (d.Get "lease") =
        .error "time: invalid duration \"notaduration\"" := by
      rw [hP, hl, parse_notaduration]
    have hne : d.Get "lease" ≠ "" := by rw [hl]; decide
    rw [write_invalid_lease E s d _ hne hm hp]
    refine ⟨rfl, fun h => ?_⟩
    have h' : ErrorResponse ("Invalid 'lease': " ++ "time: invalid duration \"notaduration\"")
        = ErrorResponse "Missing lease" := Option.some.inj (congrArg Prod.fst h)
    exact missing_ne_invalid "Missing lease" "Invalid 'lease': " _ rfl rfl
      (ErrorResponse_injective _ _ h').symm

/-- Witness for C7: `lease = "notaduration"` with `lease_max = "24h"`. -/
theorem field_identified_messages_witness :
    (pathConfigLeaseWrite refCollab []
        { Raw := [("lease", "notaduration"), ("lease_max", "24h")] }).2
      = (some (ErrorResponse ("Invalid 'lease': " ++
          "time: invalid duration \"notaduration\"")), none) :=
  ((field_identified_messages refCollab []
    { Raw := [("lease", "notaduration"), ("lease_max", "24h")] }).2.2.2.2.2
      fracExact rfl (by decide) (by decide)).1

/-- C8 (server fault on write).  With valid inputs, a failure `err` of the
encoding gives a nil response and the error
"could not create storage entry JSON: " followed by `err`, and a failure `err`
of the storage `Put` gives a nil response and the error "could not store JSON: "
followed by `err`.  Conversely a non-nil Go error comes with a nil response and
only from one of these two failures on valid inputs; a validation failure never
gives one. -/
theorem server_fault_on_write (E : Collab σ) (s : σ) (d : FieldData) :
    (∀ d1 d2, ValidInput E d d1 d2 →
      (∀ err, E.Marshal { Lease := d1, LeaseMax := d2 } = .error err →
        (pathConfigLeaseWrite E s d).2 =
          (none, some ("could not create storage entry JSON: " ++ err))) ∧
      (∀ b err, E.Marshal { Lease := d1, LeaseMax := d2 } = .ok b →
        (E.Put s { Key := "config/lease", Value := b }).2 = some err →
        (pathConfigLeaseWrite E s d).2 = (none, some ("could not store JSON: " ++ err)))) ∧
    ((pathConfigLeaseWrite E s d).2.2 ≠ none →
      (pathConfigLeaseWrite E s d).2.1 = none ∧
      ∃ d1 d2, ValidInput E d d1 d2 ∧
        ((∃ err, E.Marshal { Lease := d1, LeaseMax := d2 } = .error err) ∨
         (∃ b err, E.Marshal { Lease := d1, LeaseMax := d2 } = .ok b ∧
            (E.Put s { Key := "config/lease", Value := b }).2 = some err))) ∧
    (InvalidInput E d → (pathConfigLeaseWrite E s d).2.2 = none) := by
  refine ⟨fun d1 d2 hv => ⟨fun err henc => ?_, fun b err henc hput => ?_⟩, fun h => ?_,
    fun hi => ?_⟩
  · rw [write_encode_error E s d d1 d2 err hv henc]
  · rw [write_put_error E s d d1 d2 b err hv henc hput]
  · rcases valid_or_invalid E d with ⟨d1, d2, hv⟩ | hi
    · cases henc : E.Marshal { Lease := d1, LeaseMax := d2 } with
      | error err =>
        rw [write_encode_error E s d d1 d2 err hv henc]
        exact ⟨rfl, d1, d2, hv, .inl ⟨err, henc⟩⟩
      | ok b =>
        cases hput : (E.Put s { Key := "config/lease", Value := b }).2 with
        | none =>
          rw [write_put_ok E s d d1 d2 b hv henc hput] at h
          exact absurd rfl h
        | some err =>
          rw [write_put_error E s d d1 d2 b err hv henc hput]
          exact ⟨rfl, d1, d2, hv, .inr ⟨b, err, henc, hput⟩⟩
    · obtain ⟨msg, hm⟩ := write_invalid E s d hi
      rw [hm] at h
      exact absurd rfl h
  · obtain ⟨msg, hm⟩ := write_invalid E s d hi
    rw [hm]

/-- Witness for C8: valid inputs on a storage whose `Put` fails with
"disk full". -/
theorem server_fault_on_write_witness :
    (pathConfigLeaseWrite (failingPut "disk full") []
        { Raw := [("lease", "1h"), ("lease_max", "24h")] }).2
      = (none, some ("could not store JSON: " ++ "disk full")) :=
  ((server_fault_on_write (failingPut "disk full") []
    { Raw := [("lease", "1h"), ("lease_max", "24h")] }).1 3600000000000 86400000000000
    ⟨by decide, by decide, parse_1h fracExact, parse_24h fracExact⟩).2 _ "disk full" rfl rfl

/-- C9 (read outcomes).  `Lease` returns a nil record and a nil error if and
only if the storage `Get` succeeds with no entry at `"config/lease"`; when the
`Get` fails, or an entry exists and fails to decode, it returns a nil record and
the underlying error; when an entry exists and decodes it returns the decoded
record and a nil error.  Exactly one of the three outcomes holds. -/
theorem lease_outcomes (E : Collab σ) (s : σ) :
    (Lease E s = (none, none) ↔ E.Get s "config/lease" = .ok none) ∧
    (∀ err, E.Get s "config/lease" = .error err → Lease E s = (none, some err)) ∧
    (∀ entry err, E.Get s "config/lease" = .ok (some entry) →
      E.Unmarshal entry.Value = .error err → Lease E s = (none, some err)) ∧
    (∀ entry c, E.Get s "config/lease" = .ok (some entry) →
      E.Unmarshal entry.Value = .ok c → Lease E s = (some c, none)) ∧
    ((Lease E s = (none, none) ∧ (¬ ∃ err, Lease E s = (none, some err)) ∧
        ¬ ∃ c, Lease E s = (some c, none)) ∨
      ((∃ err, Lease E s = (none, some err)) ∧ Lease E s ≠ (none, none) ∧
        ¬ ∃ c, Lease E s = (some c, none)) ∨
      ((∃ c, Lease E s = (some c, none)) ∧ Lease E s ≠ (none, none) ∧
        ¬ ∃ err, Lease E s = (none, some err))) := by
  refine ⟨⟨fun h => ?_, lease_absent E s⟩, lease_get_error E s, lease_decode_error E s,
    lease_decoded E s, ?_⟩
  · cases hg : E.Get s "config/lease" with
    | error err => rw [lease_get_error E s err hg] at h; cases h
    | ok o =>
      cases o with
      | none => rfl
      | some entry =>
        cases hd : E.Unmarshal entry.Value with
        | error err => rw [lease_decode_error E s entry err hg hd] at h; cases h
        | ok c => rw [lease_decoded E s entry c hg hd] at h; cases h
  · cases hg : E.Get s "config/lease" with
    | error err =>
      rw [lease_get_error E s err hg]
      exact .inr (.inl ⟨⟨err, rfl⟩, by simp, by simp⟩)
    | ok o =>
      cases o with
      | none =>
        rw [lease_absent E s hg]
        exact .inl ⟨rfl, by simp, by simp⟩
      | some entry =>
        cases hd : E.Unmarshal entry.Value with
        | error err =>
          rw [lease_decode_error E s entry err hg hd]
          exact .inr (.inl ⟨⟨err, rfl⟩, by simp, by simp⟩)
        | ok c =>
          rw [lease_decoded E s entry c hg hd]
          exact .inr (.inr ⟨⟨c, rfl⟩, by simp, by simp⟩)

/-- Witness for C9: an entry that does not decode, and a storage whose `Get`
fails, each give a nil record and the underlying error. -/
theorem lease_outcomes_witness :
    Lease refCollab [{ Key := "config/lease", Value := "garbage" }]
      = (none, some "invalid character looking for beginning of value") ∧
    Lease (failingGet "connection refused") [] = (none, some "connection refused") :=
  ⟨(lease_outcomes refCollab [{ Key := "config/lease", Value := "garbage" }]).2.2.1
      { Key := "config/lease", Value := "garbage" } _ rfl (by decide),
    (lease_outcomes (failingGet "connection refused") []).2.1 _ rfl⟩

/-- C10, counterexample.  On the in-memory storage, writes with `lease = "-1h"`,
`lease = "0s"` and `lease = "0"` (each with `lease_max = "1h"`) succeed, and
`Lease` afterwards returns a record whose `Lease` is -1h, 0 and 0: a persisted
record need not have a positive `Lease`. -/
theorem stored_lease_positive_counterexample :
    ((pathConfigLeaseWrite refCollab [] { Raw := [("lease", "-1h"), ("lease_max", "1h")] }).2
        = (none, none) ∧
      Lease refCollab
          (pathConfigLeaseWrite refCollab [] { Raw := [("lease", "-1h"), ("lease_max", "1h")] }).1
        = (some { Lease := -3600000000000, LeaseMax := 3600000000000 }, none)) ∧
    ((pathConfigLeaseWrite refCollab [] { Raw := [("lease", "0s"), ("lease_max", "1h")] }).2
        = (none, none) ∧
      Lease refCollab
          (pathConfigLeaseWrite refCollab [] { Raw := [("lease", "0s"), ("lease_max", "1h")] }).1
        = (some { Lease := 0, LeaseMax := 3600000000000 }, none)) ∧
    ((pathConfigLeaseWrite refCollab [] { Raw := [("lease", "0"), ("lease_max", "1h")] }).2
        = (none, none) ∧
      Lease refCollab
          (pathConfigLeaseWrite refCollab [] { Raw := [("lease", "0"), ("lease_max", "1h")] }).1
        = (some { Lease := 0, LeaseMax := 3600000000000 }, none)) ∧
    ¬ ∀ (s : MemStorage) (d : FieldData) (c : configLease),
        (pathConfigLeaseWrite refCollab s d).2 = (none, none) →
        Lease refCollab (pathConfigLeaseWrite refCollab s d).1 = (some c, none) →
        0 < c.Lease := by
  have h1 := refCollab_write_then_lease []
    { Raw := [("lease", "-1h"), ("lease_max", "1h")] } (-3600000000000) 3600000000000
    ⟨by decide, by decide, parse_minus_1h fracExact, parse_1h fracExact⟩
  have h2 := refCollab_write_then_lease []
    { Raw := [("lease", "0s"), ("lease_max", "1h")] } 0 3600000000000
    ⟨by decide, by decide, parse_0s fracExact, parse_1h fracExact⟩
  have h3 := refCollab_write_then_lease []
    { Raw := [("lease", "0"), ("lease_max", "1h")] } 0 3600000000000
    ⟨by decide, by decide, parse_zero fracExact, parse_1h fracExact⟩
  refine ⟨h1, h2, h3, fun h => ?_⟩
  have := h [] { Raw := [("lease", "0s"), ("lease_max", "1h")] }
    { Lease := 0, LeaseMax := 3600000000000 } h2.1 h2.2
  exact absurd this (by decide)

/-- C10, as amended.  A successful `pathConfigLeaseWrite` persists the record
whose `Lease` and `LeaseMax` are the durations the parser returned for the two
fields, whatever their sign: no positivity check is made.  With the
standard-library parser, `lease = "0"` and `lease = "0s"` persist a `Lease` of
zero and `lease = "-1h"` a `Lease` of minus one hour. -/
theorem stored_lease_is_parsed_lease (E : Collab σ) (hRW : E.ReadAfterWrite)
    (hRT : E.RoundTrip) (s : σ) (d : FieldData) (d1 d2 : Duration) (b : String)
    (hv : ValidInput E d d1 d2)
    (henc : E.Marshal { Lease := d1, LeaseMax := d2 } = .ok b)
    (hput : (E.Put s { Key := "config/lease", Value := b }).2 = none) :
    (pathConfigLeaseWrite E s d).2 = (none, none) ∧
    (∃ c, Lease E (pathConfigLeaseWrite E s d).1 = (some c, none) ∧
      c.Lease = d1 ∧ c.LeaseMax = d2) ∧
    ∀ frac, E.ParseDuration = ParseDuration frac →
      (d.Get "lease" = "0" → d1 = 0) ∧
      (d.Get "lease" = "0s" → d1 = 0) ∧
      (d.Get "lease" = "-1h" → d1 = -3600000000000) := by
  have hw := write_put_ok E s d d1 d2 b hv henc hput
  refine ⟨by rw [hw], ⟨{ Lease := d1, LeaseMax := d2 }, ?_, rfl, rfl⟩, fun frac hP => ?_⟩
  · rw [hw]
    exact lease_after_put E hRW hRT s _ b henc hput
  · obtain ⟨_, _, hp1, _⟩ := hv
    rw [hP] at hp1
    refine ⟨fun hl => ?_, fun hl => ?_, fun hl => ?_⟩
    · rw [hl, parse_zero] at hp1
      exact (Except.ok.inj hp1).symm
    · rw [hl, parse_0s] at hp1
      exact (Except.ok.inj hp1).symm
    · rw [hl, parse_minus_1h] at hp1
      exact (Except.ok.inj hp1).symm

/-- Witness for C10 as amended: `lease = "-1h"`, `lease_max = "1h"` on the empty
in-memory storage succeeds. -/
theorem stored_lease_is_parsed_lease_witness :
    (pathConfigLeaseWrite refCollab [] { Raw := [("lease", "-1h"), ("lease_max", "1h")] }).2
      = (none, none) :=
  (stored_lease_is_parsed_lease refCollab refCollab_readAfterWrite refCollab_roundTrip []
    { Raw := [("lease", "-1h"), ("lease_max", "1h")] } (-3600000000000) 3600000000000 _
    ⟨by decide, by decide, parse_minus_1h fracExact, parse_1h fracExact⟩ rfl rfl).1

/-- C12 (no transition back to unconfigured).  Over a storage that is
read-after-write consistent and on which a failed `Put` stores nothing, with a
round-trip faithful encoding: once `Lease` returns a non-nil record it returns a
non-nil record after every further sequence of `pathConfigLeaseWrite` calls
(valid, invalid, or failing in the encoder or the storage) and `Lease` calls.
Each single call preserves the configured state, so it is an invariant of the
step relation. -/
theorem configured_is_invariant (E : Collab σ) (hRW : E.ReadAfterWrite) (hRT : E.RoundTrip)
    (hK : E.FailedPutKeeps) (s : σ) (h : Configured E s) :
    (∀ op, Configured E (step E s op)) ∧ ∀ ops, Configured E (run E s ops) := by
  have hstep : ∀ (t : σ) (op : Op), Configured E t → Configured E (step E t op) := by
    intro t op ht
    cases op with
    | lease => exact ht
    | write d =>
      show Configured E (pathConfigLeaseWrite E t d).1
      by_cases hok : (pathConfigLeaseWrite E t d).2 = (none, none)
      · rcases valid_or_invalid E d with ⟨d1, d2, hv⟩ | hi
        · cases henc : E.Marshal { Lease := d1, LeaseMax := d2 } with
          | error err =>
            rw [write_encode_error E t d d1 d2 err hv henc] at hok
            cases hok
          | ok b =>
            cases hput : (E.Put t { Key := "config/lease", Value := b }).2 with
            | some err =>
              rw [write_put_error E t d d1 d2 b err hv henc hput] at hok
              cases hok
            | none =>
              rw [write_put_ok E t d d1 d2 b hv henc hput]
              exact ⟨_, lease_after_put E hRW hRT t _ b henc hput⟩
        · obtain ⟨msg, hm⟩ := write_invalid E t d hi
          rw [hm]
          exact ht
      · obtain ⟨c, hc⟩ := ht
        refine ⟨c, ?_⟩
        have hg := failed_write_keeps E hK t d hok "config/lease"
        unfold Lease at hc ⊢
        rw [hg]
        exact hc
  refine ⟨fun op => hstep s op h, fun ops => ?_⟩
  induction ops generalizing s with
  | nil => exact h
  | cons op ops ih => exact ih (step E s op) (hstep s op h)

/-- Witness for C12: from the in-memory storage configured by `("1h", "24h")`,
an invalid write, a `Lease` call and a valid write leave it configured. -/
theorem configured_is_invariant_witness :
    Configured refCollab
      (run refCollab
        (pathConfigLeaseWrite refCollab [] { Raw := [("lease", "1h"), ("lease_max", "24h")] }).1
        [.write { Raw := [("lease", "1d"), ("lease_max", "24h")] }, .lease,
          .write { Raw := [("lease", "1h30m"), ("lease_max", "24h")] }]) :=
  (configured_is_invariant refCollab refCollab_readAfterWrite refCollab_roundTrip
    refCollab_failedPutKeeps _
    ⟨_, (refCollab_write_then_lease [] { Raw := [("lease", "1h"), ("lease_max", "24h")] }
      3600000000000 86400000000000
      ⟨by decide, by decide, parse_1h fracExact, parse_24h fracExact⟩).2⟩).2 _

/-- C13 (single-key frame).  For every storage state and every input, when the
storage keeps its keys independent (a successful `Put` changes no other key, a
failed `Put` stores nothing), `pathConfigLeaseWrite` leaves what is stored at
every key other than `"config/lease"` unchanged.  The only `Put` it performs is
of an entry whose key is `"config/lease"`, and on success it has performed one;
`Lease` in turn depends on the storage only through `Get` at `"config/lease"`,
the same key. -/
theorem single_key_frame (E : Collab σ) (hF : E.PutFrame) (hK : E.FailedPutKeeps) (s : σ)
    (d : FieldData) :
    (∀ k, k ≠ "config/lease" → E.Get (pathConfigLeaseWrite E s d).1 k = E.Get s k) ∧
    ((pathConfigLeaseWrite E s d).1 = s ∨
      ∃ e : StorageEntry, e.Key = "config/lease" ∧
        (pathConfigLeaseWrite E s d).1 = (E.Put s e).1) ∧
    ((pathConfigLeaseWrite E s d).2 = (none, none) →
      ∃ e : StorageEntry, e.Key = "config/lease" ∧ (E.Put s e).2 = none ∧
        (pathConfigLeaseWrite E s d).1 = (E.Put s e).1) ∧
    (∀ t : σ, E.Get t "config/lease" = E.Get s "config/lease" → Lease E t = Lease E s) := by
  have hlease : ∀ t : σ, E.Get t "config/lease" = E.Get s "config/lease" →
      Lease E t = Lease E s := by
    intro t ht
    unfold Lease
    rw [ht]
  rcases valid_or_invalid E d with ⟨d1, d2, hv⟩ | hi
  · cases henc : E.Marshal { Lease := d1, LeaseMax := d2 } with
    | error err =>
      rw [write_encode_error E s d d1 d2 err hv henc]
      exact ⟨fun _ _ => rfl, .inl rfl, fun h => (by cases h), hlease⟩
    | ok b =>
      cases hput : (E.Put s { Key := "config/lease", Value := b }).2 with
      | some err =>
        rw [write_put_error E s d d1 d2 b err hv henc hput]
        exact ⟨fun k _ => hK s _ k (by rw [hput]; simp), .inr ⟨_, rfl, rfl⟩,
          fun h => (by cases h), hlease⟩
      | none =>
        rw [write_put_ok E s d d1 d2 b hv henc hput]
        exact ⟨fun k hk => hF s _ k hput hk, .inr ⟨_, rfl, rfl⟩,
          fun _ => ⟨_, rfl, hput, rfl⟩, hlease⟩
  · obtain ⟨msg, hm⟩ := write_invalid E s d hi
    rw [hm]
    exact ⟨fun _ _ => rfl, .inl rfl, fun h => (by cases h), hlease⟩

/-- Witness for C13: a successful write on an in-memory storage that holds an
entry under another key leaves that entry in place. -/
theorem single_key_frame_witness :
    refCollab.Get
        (pathConfigLeaseWrite refCollab [{ Key := "roles/web", Value := "r" }]
          { Raw := [("lease", "1h"), ("lease_max", "24h")] }).1 "roles/web"
      = refCollab.Get [{ Key := "roles/web", Value := "r" }] "roles/web" :=
  (single_key_frame refCollab refCollab_putFrame refCollab_failedPutKeeps
    [{ Key := "roles/web", Value := "r" }]
    { Raw := [("lease", "1h"), ("lease_max", "24h")] }).1 "roles/web" (by decide)

/-- C15 (no cross-field bound).  Valid inputs whose `lease` exceeds their
`lease_max` are accepted like any other valid inputs: the write succeeds and
`Lease` afterwards returns a record with `Lease > LeaseMax`.  With the
standard-library parser, `lease = "24h"` and `lease_max = "1h"` are such inputs,
so `Lease <= LeaseMax` is not an invariant of stored records. -/
theorem no_cross_field_bound (E : Collab σ) (hRW : E.ReadAfterWrite) (hRT : E.RoundTrip)
    (s : σ) (d : FieldData) (d1 d2 : Duration) (b : String)
    (hv : ValidInput E d d1 d2) (hgt : d2 < d1)
    (henc : E.Marshal { Lease := d1, LeaseMax := d2 } = .ok b)
    (hput : (E.Put s { Key := "config/lease", Value := b }).2 = none) :
    (pathConfigLeaseWrite E s d).2 = (none, none) ∧
    (∃ c, Lease E (pathConfigLeaseWrite E s d).1 = (some c, none) ∧ c.LeaseMax < c.Lease) ∧
    ∀ frac, E.ParseDuration = ParseDuration frac →
      d.Get "lease" = "24h" → d.Get "lease_max" = "1h" →
      d1 = 86400000000000 ∧ d2 = 3600000000000 := by
  have hw := write_put_ok E s d d1 d2 b hv henc hput
  refine ⟨by rw [hw], ⟨{ Lease := d1, LeaseMax := d2 }, ?_, hgt⟩, fun frac hP hl hm => ?_⟩
  · rw [hw]
    exact lease_after_put E hRW hRT s _ b henc hput
  · obtain ⟨_, _, hp1, hp2⟩ := hv
    rw [hP, hl, parse_24h] at hp1
    rw [hP, hm, parse_1h] at hp2
    exact ⟨(Except.ok.inj hp1).symm, (Except.ok.inj hp2).symm⟩

/-- Witness for C15: on the empty in-memory storage, `lease = "24h"` with
`lease_max = "1h"` is stored and read back with `Lease > LeaseMax`. -/
theorem no_cross_field_bound_witness :
    ∃ c, Lease refCollab
        (pathConfigLeaseWrite refCollab [] { Raw := [("lease", "24h"), ("lease_max", "1h")] }).1
      = (some c, none) ∧ c.LeaseMax < c.Lease :=
  (no_cross_field_bound refCollab refCollab_readAfterWrite refCollab_roundTrip []
    { Raw := [("lease", "24h"), ("lease_max", "1h")] } 86400000000000 3600000000000 _
    ⟨by decide, by decide, parse_24h fracExact, parse_1h fracExact⟩ (by decide) rfl rfl).2.1

/-! ## The parser on a decimal magnitude followed by a unit -/

theorem foldl_digit_ge (ds : List Char) :
    ∀ x : Nat, x ≤ ds.foldl (fun a c => a * 10 + (c.toNat - 48)) x := by
  induction ds with
  | nil => intro x; exact Nat.le_refl x
  | cons c cs ih =>
    intro x
    simp only [List.foldl_cons]
    exact Nat.le_trans (by omega) (ih _)

theorem leadingIntFrom_digits (ds rest : List Char) (hds : ∀ c ∈ ds, isDigit c = true)
    (hrest : ∀ c ∈ rest.head?, isDigit c = false) :
    ∀ x : Nat, x ≤ 2 ^ 63 →
      leadingIntFrom x (ds ++ rest) =
        if ds.foldl (fun a c => a * 10 + (c.toNat - 48)) x ≤ 2 ^ 63
        then some (ds.foldl (fun a c => a * 10 + (c.toNat - 48)) x, rest) else none := by
  induction ds with
  | nil =>
    intro x hx
    simp only [List.nil_append, List.foldl_nil, hx, if_true]
    cases rest with
    | nil => rfl
    | cons r rs =>
      have hr : isDigit r = false := hrest r (by simp)
      simp [leadingIntFrom, hr]
  | cons c cs ih =>
    intro x hx
    have hc : isDigit c = true := hds c (List.mem_cons_self _ _)
    have hc48 : 48 ≤ c.toNat := by
      simp only [isDigit, Bool.and_eq_true, decide_eq_true_eq] at hc
      exact hc.1
    have hcs := ih fun y hy => hds y (List.mem_cons_of_mem _ hy)
    have hge := foldl_digit_ge cs (x * 10 + (c.toNat - 48))
    simp only [List.cons_append, List.foldl_cons, leadingIntFrom, hc, Bool.not_true,
      Bool.false_eq_true, if_false]
    by_cases h1 : x > 2 ^ 63 / 10
    · have : ¬ cs.foldl (fun a c => a * 10 + (c.toNat - 48)) (x * 10 + (c.toNat - 48))
          ≤ 2 ^ 63 := by omega
      simp only [h1, if_true, this, if_false]
    · have heq : x * 10 + c.toNat - 48 = x * 10 + (c.toNat - 48) := by omega
      simp only [h1, if_false, heq]
      by_cases h2 : x * 10 + (c.toNat - 48) > 2 ^ 63
      · have : ¬ cs.foldl (fun a c => a * 10 + (c.toNat - 48)) (x * 10 + (c.toNat - 48))
            ≤ 2 ^ 63 := by omega
        simp only [h2, if_true, this, if_false]
      · simp only [h2, if_false]
        exact hcs _ (by omega)

theorem leadingInt_decimal (n : Nat) (rest : List Char)
    (hrest : ∀ c ∈ rest.head?, isDigit c = false) :
    leadingInt (decimal n ++ rest) = if n ≤ 2 ^ 63 then some (n, rest) else none := by
  have h := leadingIntFrom_digits (decimal n) rest (decimal_isDigit n) hrest 0 (by omega)
  have hv : (decimal n).foldl (fun a c => a * 10 + (c.toNat - 48)) 0 = n := digitsValue_decimal n
  rw [hv] at h
  exact h

theorem optionalFraction_of_unit (u : List Char)
    (hall : ∀ c ∈ u, (c = '.' || isDigit c) = false) :
    optionalFraction u = (0, 1, u, false) := by
  unfold optionalFraction
  split
  · rename_i r
    have := hall '.' (List.mem_cons_self _ _)
    simp at this
  · rfl

theorem takeWhile_dropWhile_all (p : Char → Bool) (l : List Char)
    (h : ∀ c ∈ l, p c = true) : l.takeWhile p = l ∧ l.dropWhile p = [] := by
  induction l with
  | nil => exact ⟨rfl, rfl⟩
  | cons x xs ih =>
    have hx : p x = true := h x (List.mem_cons_self _ _)
    have := ih fun y hy => h y (List.mem_cons_of_mem _ hy)
    simp [List.takeWhile, List.dropWhile, hx, this]

theorem parseRound_magnitude_unit (frac : Nat → Nat → Nat → Nat) (orig : String) (n : Nat)
    (u : List Char) (hu : u ≠ []) (hall : ∀ c ∈ u, (c = '.' || isDigit c) = false)
    (c : Char) (cs : List Char) (hs : c :: cs = decimal n ++ u) (d : Nat) :
    parseRound frac orig c cs d =
      if n ≤ 2 ^ 63 then
        match unitMap.lookup (String.mk u) with
        | none =>
          .error ("time: unknown unit " ++ quote (String.mk u) ++ " in duration " ++ quote orig)
        | some unit =>
          if n > 2 ^ 63 / unit then .error ("time: invalid duration " ++ quote orig)
          else if (d + n * unit) % 2 ^ 64 > 2 ^ 63 then
            .error ("time: invalid duration " ++ quote orig)
          else .ok ((d + n * unit) % 2 ^ 64, [])
      else .error ("time: invalid duration " ++ quote orig) := by
  obtain ⟨x, xs, hx, _⟩ := decimal_head n
  have hcx : c = x := by
    rw [hx] at hs
    exact (List.cons.inj hs).1
  have hdig : isDigit c = true := by
    rw [hcx]
    exact decimal_isDigit n x (by rw [hx]; exact List.mem_cons_self _ _)
  have hrest : ∀ y ∈ u.head?, isDigit y = false := by
    intro y hy
    cases u with
    | nil => cases hy
    | cons a as =>
      simp only [List.head?_cons, Option.mem_def, Option.some.injEq] at hy
      subst hy
      have := hall a (List.mem_cons_self _ _)
      simp only [Bool.or_eq_false_iff] at this
      exact this.2
  have hlen : ((c :: cs).length != u.length) = true := by
    rw [hs, hx]
    simp only [List.cons_append, List.length_cons, List.length_append, bne_iff_ne, ne_eq]
    omega
  have htd := takeWhile_dropWhile_all (fun c => !(c = '.' || isDigit c)) u
    (fun y hy => by simp only [hall y hy, Bool.not_false])
  have hul : ¬ u.length = 0 := by
    cases u with
    | nil => exact absurd rfl hu
    | cons a as => simp
  unfold parseRound
  rw [hs, leadingInt_decimal n u hrest, ← hs]
  by_cases hn : n ≤ 2 ^ 63
  · simp only [hdig, Bool.or_true, Bool.not_true, Bool.false_eq_true, if_false, hn, if_true,
      optionalFraction_of_unit u hall, hlen, Bool.and_false, Bool.false_and, htd.1, htd.2, hul,
      Nat.lt_irrefl, gt_iff_lt]
  · simp only [hdig, Bool.or_true, Bool.not_true, Bool.false_eq_true, if_false, hn]

theorem parseLoop_nil (frac : Nat → Nat → Nat → Nat) (orig : String) (fuel d : Nat) :
    parseLoop frac orig fuel [] d = .ok d := by
  cases fuel <;> rfl

theorem ParseDuration_unsigned (frac : Nat → Nat → Nat → Nat) (orig : String) (c : Char)
    (cs : List Char) (hd : orig.data = c :: cs) (hm : c ≠ '-') (hp : c ≠ '+') :
    ParseDuration frac orig =
      if c :: cs = ['0'] then .ok 0
      else
        match parseLoop frac orig (c :: cs).length (c :: cs) 0 with
        | .error err => .error err
        | .ok d =>
          if d > 2 ^ 63 - 1 then .error ("time: invalid duration " ++ quote orig)
          else .ok (d : Int) := by
  have hsg : (match orig.data with
      | '-' :: r => (true, r)
      | '+' :: r => (false, r)
      | r => (false, r)) = (false, c :: cs) := by
    rw [hd]
    split
    · rename_i h; exact absurd (List.cons.inj h).1 hm
    · rename_i h; exact absurd (List.cons.inj h).1 hp
    · rfl
  unfold ParseDuration
  simp only [hsg, Bool.false_eq_true, if_false]
  by_cases h0 : c :: cs = ['0']
  · simp only [h0, if_true]
  · have hne : ¬ c :: cs = [] := by simp
    simp only [h0, hne, if_false]

theorem ParseDuration_magnitude_unit (frac : Nat → Nat → Nat → Nat) (n : Nat) (u : String)
    (hu : u.data ≠ []) (hall : ∀ c ∈ u.data, (c = '.' || isDigit c) = false) :
    ParseDuration frac (magnitudeWithUnit n u) =
      if n ≤ 2 ^ 63 then
        match unitMap.lookup u with
        | none =>
          .error ("time: unknown unit " ++ quote u ++ " in duration " ++
            quote (magnitudeWithUnit n u))
        | some unit =>
          if n > 2 ^ 63 / unit then
            .error ("time: invalid duration " ++ quote (magnitudeWithUnit n u))
          else if (0 + n * unit) % 2 ^ 64 > 2 ^ 63 then
            .error ("time: invalid duration " ++ quote (magnitudeWithUnit n u))
          else if (0 + n * unit) % 2 ^ 64 > 2 ^ 63 - 1 then
            .error ("time: invalid duration " ++ quote (magnitudeWithUnit n u))
          else .ok (((0 + n * unit) % 2 ^ 64 : Nat) : Int)
      else .error ("time: invalid duration " ++ quote (magnitudeWithUnit n u)) := by
  obtain ⟨x, xs, hx, hxm⟩ := decimal_head n
  have hxd : isDigit x = true := decimal_isDigit n x (by rw [hx]; exact List.mem_cons_self _ _)
  have hxp : x ≠ '+' := by
    intro h
    rw [h] at hxd
    exact absurd hxd (by decide)
  have hdata : (magnitudeWithUnit n u).data = x :: (xs ++ u.data) := by
    simp only [magnitudeWithUnit, hx, List.cons_append]
  have hs : x :: (xs ++ u.data) = decimal n ++ u.data := by
    rw [hx, List.cons_append]
  have h0 : ¬ x :: (xs ++ u.data) = ['0'] := by
    intro h
    have h2 := congrArg List.length h
    have hul : u.data.length ≠ 0 := fun h => hu (List.eq_nil_of_length_eq_zero h)
    simp only [List.length_cons, List.length_append, List.length_nil] at h2
    omega
  have hround := parseRound_magnitude_unit frac (magnitudeWithUnit n u) n u.data hu hall x
    (xs ++ u.data) hs 0
  rw [ParseDuration_unsigned frac _ x (xs ++ u.data) hdata hxm hxp]
  simp only [h0, if_false, List.length_cons, parseLoop, hround]
  by_cases hn : n ≤ 2 ^ 63
  · simp only [hn, if_true]
    cases unitMap.lookup u with
    | none => rfl
    | some unit =>
      simp only
      by_cases h1 : n > 2 ^ 63 / unit
      · simp only [h1, if_true]
      · simp only [h1, if_false]
        by_cases h2 : (0 + n * unit) % 2 ^ 64 > 2 ^ 63
        · simp only [h2, if_true]
        · simp only [h2, if_false, parseLoop_nil]
  · simp only [hn, if_false]

theorem parse_unknown_unit (frac : Nat → Nat → Nat → Nat) (n : Nat) (u : String)
    (hu : UnknownUnit u) : ∃ msg, ParseDuration frac (magnitudeWithUnit n u) = .error msg := by
  obtain ⟨h1, h2, h3⟩ := hu
  rw [ParseDuration_magnitude_unit frac n u h1 h2, h3]
  by_cases hn : n ≤ 2 ^ 63
  · simp only [hn, if_true]
    exact ⟨_, rfl⟩
  · simp only [hn, if_false]
    exact ⟨_, rfl⟩

theorem parse_hours (frac : Nat → Nat → Nat → Nat) (n : Nat) :
    ParseDuration frac (magnitudeWithUnit n "h") =
      if n ≤ 2562047 then .ok ((n : Int) * 3600000000000)
      else .error ("time: invalid duration " ++ quote (magnitudeWithUnit n "h")) := by
  have hl : unitMap.lookup "h" = some 3600000000000 := by decide
  rw [ParseDuration_magnitude_unit frac n "h" (by decide) (by decide), hl]
  have e63 : (2 : Nat) ^ 63 = 9223372036854775808 := by norm_num
  have e64 : (2 : Nat) ^ 64 = 18446744073709551616 := by norm_num
  have ediv : 9223372036854775808 / 3600000000000 = 2562047 := by norm_num
  simp only [e63, e64, ediv]
  by_cases hn : n ≤ 2562047
  · have h1 : n ≤ 9223372036854775808 := by omega
    have h2 : ¬ n > 2562047 := by omega
    have h3 : (0 + n * 3600000000000) % 18446744073709551616 = n * 3600000000000 := by omega
    have h4 : ¬ n * 3600000000000 > 9223372036854775808 := by omega
    have h5 : ¬ n * 3600000000000 > 9223372036854775808 - 1 := by omega
    simp only [hn, h1, h2, h3, h4, h5, if_true, if_false]
    push_cast
    rfl
  · by_cases h1 : n ≤ 9223372036854775808
    · have h2 : n > 2562047 := by omega
      simp only [hn, h1, h2, if_true, if_false]
    · simp only [hn, h1, if_false]

theorem magnitudeWithUnit_small (n : Nat) (h : n < 10) (u : String) :
    magnitudeWithUnit n u = String.mk (digitChar n :: u.data) := by
  rw [magnitudeWithUnit, decimal]
  simp only [h, if_true, List.singleton_append]

theorem parse_2562048h (frac : Nat → Nat → Nat → Nat) :
    ParseDuration frac "2562048h" = .error "time: invalid duration \"2562048h\"" :=
  of_decide_eq_true (Eq.refl true)

theorem parse_2562047h (frac : Nat → Nat → Nat → Nat) :
    ParseDuration frac "2562047h" = .ok 9223369200000000000 :=
  of_decide_eq_true (Eq.refl true)

theorem unknownUnit_d : UnknownUnit "d" := by
  unfold UnknownUnit; decide

theorem unknownUnit_w : UnknownUnit "w" := by
  unfold UnknownUnit; decide

theorem unknownUnit_mo : UnknownUnit "mo" := by
  unfold UnknownUnit; decide

theorem unknownUnit_M : UnknownUnit "M" := by
  unfold UnknownUnit; decide

theorem unknownUnit_y : UnknownUnit "y" := by
  unfold UnknownUnit; decide

theorem magnitudeWithUnit_2562048h : magnitudeWithUnit 2562048 "h" = "2562048h" := by
  simp [magnitudeWithUnit, decimal, digitChar]

/-- C11, counterexample.  The magnitude 2562048 with unit `h` is not accepted:
`"2562048h"` does not fit in a duration, the parser rejects it, and a write with
`lease = "2562048h"` gets an "Invalid 'lease'" response although the unit is
hours.  Also a `lease` of `"1d"` with an empty `lease_max` gets the
"Missing lease_max" response, not an "Invalid 'lease'" one. -/
theorem hours_always_accepted_counterexample :
    magnitudeWithUnit 2562048 "h" = "2562048h" ∧
    refCollab.ParseDuration "2562048h" = .error "time: invalid duration \"2562048h\"" ∧
    pathConfigLeaseWrite refCollab [] { Raw := [("lease", "2562048h"), ("lease_max", "24h")] }
      = ([], some (ErrorResponse ("Invalid 'lease': " ++
          "time: invalid duration \"2562048h\"")), none) ∧
    pathConfigLeaseWrite refCollab [] { Raw := [("lease", "1d"), ("lease_max", "")] }
      = ([], some (ErrorResponse "Missing lease_max"), none) :=
  ⟨magnitudeWithUnit_2562048h, parse_2562048h fracExact,
    write_invalid_lease refCollab [] _ _ (by decide) (by decide) (parse_2562048h fracExact),
    write_missing_leaseMax refCollab [] _ (by decide) (by decide)⟩

/-- C11, as amended.  With the standard-library parser, for every magnitude `n`
and every unit text the parser does not know (such as the day, week, month and
year units `d`, `w`, `mo`, `M`, `y`): a write whose `lease` is `n` followed by
that unit, `lease_max` being non-empty, gets an "Invalid 'lease': " response; a
write whose `lease_max` is `n` followed by that unit, `lease` being valid, gets
an "Invalid 'lease_max': " response; and whatever the other field is, such a
write is rejected with an error response and leaves the storage as it was.  The
same magnitude with unit `h` is accepted exactly when `n ≤ 2562047`, the largest
number of hours a duration holds, and then parses to `n` hours; `"1h"` is
accepted. -/
theorem longer_units_rejected (E : Collab σ) (frac : Nat → Nat → Nat → Nat)
    (hP : E.ParseDuration = ParseDuration frac) (s : σ) (d : FieldData) (n : Nat) (u : String)
    (hu : UnknownUnit u) :
    (d.Get "lease" = magnitudeWithUnit n u → d.Get "lease_max" ≠ "" →
      ∃ msg, pathConfigLeaseWrite E s d =
        (s, some (ErrorResponse ("Invalid 'lease': " ++ msg)), none)) ∧
    (d.Get "lease_max" = magnitudeWithUnit n u → d.Get "lease" ≠ "" →
      (∃ lease, E.ParseDuration (d.Get "lease") = .ok lease) →
      ∃ msg, pathConfigLeaseWrite E s d =
        (s, some (ErrorResponse ("Invalid 'lease_max': " ++ msg)), none)) ∧
    (d.Get "lease" = magnitudeWithUnit n u ∨ d.Get "lease_max" = magnitudeWithUnit n u →
      ∃ msg, pathConfigLeaseWrite E s d = (s, some (ErrorResponse msg), none)) ∧
    (E.ParseDuration (magnitudeWithUnit n "h") =
      if n ≤ 2562047 then .ok ((n : Int) * 3600000000000)
      else .error ("time: invalid duration " ++ quote (magnitudeWithUnit n "h"))) ∧
    (UnknownUnit "d" ∧ UnknownUnit "w" ∧ UnknownUnit "mo" ∧ UnknownUnit "M" ∧
      UnknownUnit "y") ∧
    (magnitudeWithUnit 1 "d" = "1d" ∧ magnitudeWithUnit 2 "w" = "2w" ∧
      magnitudeWithUnit 1 "y" = "1y" ∧ magnitudeWithUnit 1 "h" = "1h") := by
  obtain ⟨msg, hmsg⟩ := parse_unknown_unit frac n u hu
  have hne : magnitudeWithUnit n u ≠ "" := by
    intro h
    have hd := congrArg String.data h
    obtain ⟨x, xs, hx, _⟩ := decimal_head n
    simp [magnitudeWithUnit, hx] at hd
  refine ⟨fun hl hm => ⟨msg, ?_⟩, fun hm hl ⟨lease, hp⟩ => ⟨msg, ?_⟩, fun h => ?_,
    by rw [hP]; exact parse_hours frac n,
    ⟨unknownUnit_d, unknownUnit_w, unknownUnit_mo, unknownUnit_M, unknownUnit_y⟩,
    ⟨by rw [magnitudeWithUnit_small 1 (by decide)]; rfl,
      by rw [magnitudeWithUnit_small 2 (by decide)]; rfl,
      by rw [magnitudeWithUnit_small 1 (by decide)]; rfl,
      by rw [magnitudeWithUnit_small 1 (by decide)]; rfl⟩⟩
  · exact write_invalid_lease E s d msg (by rw [hl]; exact hne) hm (by rw [hP, hl, hmsg])
  · exact write_invalid_leaseMax E s d lease msg hl (by rw [hm]; exact hne) hp
      (by rw [hP, hm, hmsg])
  · rcases h with h | h
    · exact write_invalid E s d (.inr (.inr (.inl ⟨msg, by rw [hP, h, hmsg]⟩)))
    · exact write_invalid E s d (.inr (.inr (.inr ⟨msg, by rw [hP, h, hmsg]⟩)))

/-- Witness for C11 as amended: `lease = "1d"` with `lease_max = "24h"` on the
in-memory storage is rejected with an "Invalid 'lease': " response. -/
theorem longer_units_rejected_witness :
    ∃ msg, pathConfigLeaseWrite refCollab []
        { Raw := [("lease", "1d"), ("lease_max", "24h")] }
      = ([], some (ErrorResponse ("Invalid 'lease': " ++ msg)), none) :=
  (longer_units_rejected refCollab fracExact rfl []
    { Raw := [("lease", "1d"), ("lease_max", "24h")] } 1 "d" unknownUnit_d).1
    (by rw [magnitudeWithUnit_small 1 (by decide)]; rfl) (by decide)

/-! ## Every text the parser accepts is a sequence of magnitude+unit pairs -/

theorem leadingIntFrom_split (s : List Char) :
    ∀ (x v : Nat) (s1 : List Char), leadingIntFrom x s = some (v, s1) →
      ∃ ds, s = ds ++ s1 ∧ ∀ c ∈ ds, isDigit c = true := by
  induction s with
  | nil =>
    intro x v s1 h
    simp only [leadingIntFrom, Option.some.injEq, Prod.mk.injEq] at h
    exact ⟨[], by rw [← h.2]; rfl, fun _ hc => by cases hc⟩
  | cons c cs ih =>
    intro x v s1 h
    rw [leadingIntFrom] at h
    split at h
    · simp only [Option.some.injEq, Prod.mk.injEq] at h
      exact ⟨[], by rw [← h.2]; rfl, fun _ hc => by cases hc⟩
    · rename_i hc
      split at h
      · cases h
      · simp only at h
        split at h
        · cases h
        · obtain ⟨ds, hds, hall⟩ := ih _ v s1 h
          refine ⟨c :: ds, by rw [hds]; rfl, fun y hy => ?_⟩
          rcases List.mem_cons.mp hy with hy | hy
          · rw [hy]; simpa using hc
          · exact hall y hy

theorem leadingFractionFrom_split (s : List Char) :
    ∀ (x scale : Nat) (o : Bool),
      ∃ ds, s = ds ++ (leadingFractionFrom x scale o s).2.2 ∧ ∀ c ∈ ds, isDigit c = true := by
  induction s with
  | nil => intro x scale o; exact ⟨[], rfl, fun _ hc => by cases hc⟩
  | cons c cs ih =>
    intro x scale o
    have key : ∀ (x1 sc1 : Nat) (o1 : Bool), isDigit c = true →
        ∃ ds, c :: cs = ds ++ (leadingFractionFrom x1 sc1 o1 cs).2.2 ∧
          ∀ y ∈ ds, isDigit y = true := by
      intro x1 sc1 o1 hc
      obtain ⟨ds, hds, hall⟩ := ih x1 sc1 o1
      refine ⟨c :: ds, by rw [List.cons_append, ← hds], fun y hy => ?_⟩
      rcases List.mem_cons.mp hy with hy | hy
      · rw [hy]; exact hc
      · exact hall y hy
    rw [leadingFractionFrom]
    split
    · exact ⟨[], rfl, fun _ hc => by cases hc⟩
    · rename_i hc
      have hc' : isDigit c = true := by simpa using hc
      split
      · exact key _ _ _ hc'
      · split
        · exact key _ _ _ hc'
        · simp only
          split
          · exact key _ _ _ hc'
          · exact key _ _ _ hc'

theorem optionalFraction_split (s1 : List Char) :
    ∃ m, s1 = m ++ (optionalFraction s1).2.2.1 ∧ ∀ c ∈ m, (c = '.' || isDigit c) = true := by
  unfold optionalFraction
  split
  · rename_i r
    obtain ⟨ds, hds, hall⟩ := leadingFractionFrom_split r 0 1 false
    refine ⟨'.' :: ds, ?_, fun y hy => ?_⟩
    · simp only [leadingFraction, List.cons_append]
      rw [← hds]
    · rcases List.mem_cons.mp hy with hy | hy
      · rw [hy]; rfl
      · simp [hall y hy]
  · exact ⟨[], rfl, fun _ hc => by cases hc⟩

theorem parseRound_split (frac : Nat → Nat → Nat → Nat) (orig : String) (c : Char)
    (cs : List Char) (d d1 : Nat) (s3 : List Char)
    (h : parseRound frac orig c cs d = .ok (d1, s3)) :
    ∃ mag u, c :: cs = mag ++ (u ++ s3) ∧ mag ≠ [] ∧
      (∀ y ∈ mag, (y = '.' || isDigit y) = true) ∧ u ≠ [] ∧
      (∀ y ∈ u, (y = '.' || isDigit y) = false) ∧
      (unitMap.lookup (String.mk u)).isSome = true := by
  unfold parseRound at h
  split at h
  · cases h
  · rename_i hfirst
    split at h
    · cases h
    · rename_i v s1 hli
      obtain ⟨ds, hds, hdsall⟩ := leadingIntFrom_split _ 0 v s1 hli
      obtain ⟨m, hm, hmall⟩ := optionalFraction_split s1
      simp only at h
      split at h
      · cases h
      · split at h
        · cases h
        · rename_i hu
          split at h
          · cases h
          · rename_i unit hlk
            split at h
            · cases h
            · split at h
              · cases h
              · split at h
                · cases h
                · simp only [Except.ok.injEq, Prod.mk.injEq] at h
                  have hs2 := List.takeWhile_append_dropWhile
                    (fun c => !(c = '.' || isDigit c)) (optionalFraction s1).2.2.1
                  rw [h.2] at hs2
                  have huall : ∀ y ∈ (optionalFraction s1).2.2.1.takeWhile
                      (fun c => !(c = '.' || isDigit c)), (y = '.' || isDigit y) = false := by
                    intro y hy
                    have := List.mem_takeWhile_imp hy
                    simpa using this
                  have hune : (optionalFraction s1).2.2.1.takeWhile
                      (fun c => !(c = '.' || isDigit c)) ≠ [] :=
                    fun hnil => hu (by rw [hnil]; rfl)
                  have hmagall : ∀ y ∈ ds ++ m, (y = '.' || isDigit y) = true := by
                    intro y hy
                    rcases List.mem_append.mp hy with hy | hy
                    · simp [hdsall y hy]
                    · exact hmall y hy
                  have hdecomp : c :: cs = (ds ++ m) ++
                      ((optionalFraction s1).2.2.1.takeWhile
                        (fun c => !(c = '.' || isDigit c)) ++ s3) := by
                    rw [hs2, List.append_assoc, ← hm, ← hds]
                  refine ⟨ds ++ m, _, hdecomp, ?_, hmagall, hune, huall, ?_⟩
                  · intro hnil
                    rw [hnil, List.nil_append] at hdecomp
                    cases hu' : (optionalFraction s1).2.2.1.takeWhile
                        (fun c => !(c = '.' || isDigit c)) with
                    | nil => exact hune hu'
                    | cons a as =>
                      rw [hu', List.cons_append] at hdecomp
                      have hca : c = a := (List.cons.inj hdecomp).1
                      have ha := huall a (by rw [hu']; exact List.mem_cons_self _ _)
                      rw [← hca] at ha
                      rw [ha] at hfirst
                      exact hfirst rfl
                  · rw [hlk]; rfl

theorem parseLoop_unitPairs (frac : Nat → Nat → Nat → Nat) (orig : String) :
    ∀ (fuel : Nat) (s : List Char) (d d' : Nat),
      parseLoop frac orig fuel s d = .ok d' → UnitPairs s := by
  intro fuel
  induction fuel with
  | zero =>
    intro s d d' h
    cases s with
    | nil => exact .nil
    | cons c cs => simp [parseLoop] at h
  | succ n ih =>
    intro s d d' h
    cases s with
    | nil => exact .nil
    | cons c cs =>
      rw [parseLoop] at h
      cases hr : parseRound frac orig c cs d with
      | error err => rw [hr] at h; cases h
      | ok p =>
        obtain ⟨d1, s3⟩ := p
        rw [hr] at h
        obtain ⟨mag, u, hdec, hmag, hmagall, hu, huall, hlk⟩ :=
          parseRound_split frac orig c cs d d1 s3 hr
        rw [hdec]
        exact .pair mag u s3 hmag hmagall hu huall hlk (ih s3 d1 d' h)

theorem ParseDuration_durationText (frac : Nat → Nat → Nat → Nat) (orig : String)
    (d : Duration) (h : ParseDuration frac orig = .ok d) : DurationText orig.data := by
  unfold ParseDuration at h
  have key : ∀ (neg : Bool) (body : List Char),
      (if body = ['0'] then (Except.ok 0 : Except String Duration)
        else if body = [] then .error ("time: invalid duration " ++ quote orig)
        else
          match parseLoop frac orig body.length body 0 with
          | .error err => .error err
          | .ok d0 =>
            if neg = true then .ok (-(d0 : Int))
            else if d0 > 2 ^ 63 - 1 then .error ("time: invalid duration " ++ quote orig)
            else .ok (d0 : Int)) = .ok d →
      body = ['0'] ∨ (body ≠ [] ∧ UnitPairs body) := by
    intro neg body hb
    by_cases h0 : body = ['0']
    · exact .inl h0
    · by_cases hnil : body = []
      · simp only [h0, hnil, if_false, if_true] at hb
        cases hb
      · simp only [h0, hnil, if_false] at hb
        cases hl : parseLoop frac orig body.length body 0 with
        | error err => rw [hl] at hb; cases hb
        | ok d0 => exact .inr ⟨hnil, parseLoop_unitPairs frac orig _ body 0 d0 hl⟩
  have hsg : ∀ (c : Char) (cs : List Char),
      (match c :: cs with
        | '-' :: r => (true, r)
        | '+' :: r => (false, r)
        | r => (false, r)) =
        if c = '-' then (true, cs) else if c = '+' then (false, cs) else (false, c :: cs) := by
    intro c cs
    split
    · rename_i hh
      obtain ⟨h1, h2⟩ := List.cons.inj hh
      simp only [h1, h2, if_true]
    · rename_i hh
      obtain ⟨h1, h2⟩ := List.cons.inj hh
      subst h1 h2
      have : ¬ '+' = '-' := by decide
      simp only [this, if_false, if_true]
    · rename_i h1 h2
      have hm : ¬ c = '-' := fun hc => h1 cs (by rw [hc])
      have hp : ¬ c = '+' := fun hc => h2 cs (by rw [hc])
      simp only [hm, hp, if_false]
  cases hd : orig.data with
  | nil =>
    rw [hd] at h
    simp at h
  | cons c cs =>
    rw [hd, hsg c cs] at h
    by_cases hm : c = '-'
    · simp only [hm, if_true] at h
      exact ⟨cs, .inr (.inl (by rw [hm])), key true cs h⟩
    · by_cases hp : c = '+'
      · simp only [hm, hp, if_false, if_true] at h
        exact ⟨cs, .inr (.inr (by rw [hp])), key false cs h⟩
      · simp only [hm, hp, if_false] at h
        exact ⟨c :: cs, .inl rfl, key false (c :: cs) h⟩

theorem unitMap_names (u : String) (h : (unitMap.lookup u).isSome = true) :
    u ∈ ["ns", "us", "µs", "μs", "ms", "s", "m", "h"] := by
  simp only [unitMap, List.lookup] at h
  simp only [List.mem_cons, List.mem_singleton, List.not_mem_nil, or_false]
  split at h
  · rename_i hh; exact .inl (by simpa using hh)
  · split at h
    · rename_i hh; exact .inr (.inl (by simpa using hh))
    · split at h
      · rename_i hh; exact .inr (.inr (.inl (by simpa using hh)))
      · split at h
        · rename_i hh; exact .inr (.inr (.inr (.inl (by simpa using hh))))
        · split at h
          · rename_i hh; exact .inr (.inr (.inr (.inr (.inl (by simpa using hh)))))
          · split at h
            · rename_i hh
              exact .inr (.inr (.inr (.inr (.inr (.inl (by simpa using hh))))))
            · split at h
              · rename_i hh
                exact .inr (.inr (.inr (.inr (.inr (.inr (.inl (by simpa using hh)))))))
              · split at h
                · rename_i hh
                  exact .inr (.inr (.inr (.inr (.inr (.inr (.inr (by simpa using hh)))))))
                · cases h

theorem parse_100ms (frac : Nat → Nat → Nat → Nat) :
    ParseDuration frac "100ms" = .ok 100000000 :=
  of_decide_eq_true (Eq.refl true)

theorem parse_5us (frac : Nat → Nat → Nat → Nat) : ParseDuration frac "5us" = .ok 5000 :=
  of_decide_eq_true (Eq.refl true)

theorem parse_1ns (frac : Nat → Nat → Nat → Nat) : ParseDuration frac "1ns" = .ok 1 :=
  of_decide_eq_true (Eq.refl true)

theorem parse_5 (frac : Nat → Nat → Nat → Nat) :
    ParseDuration frac "5" = .error "time: missing unit in duration \"5\"" :=
  of_decide_eq_true (Eq.refl true)

/-! ## A text of digits and periods only is rejected, the bare `0` apart -/

theorem takeWhile_unit_of_magnitude (s2 : List Char)
    (h : ∀ y ∈ s2, (y = '.' || isDigit y) = true) :
    s2.takeWhile (fun c => !(c = '.' || isDigit c)) = [] := by
  cases s2 with
  | nil => rfl
  | cons a as =>
    have ha := h a (List.mem_cons_self _ _)
    simp only [List.takeWhile, ha, Bool.not_true]

theorem parseRound_bare (frac : Nat → Nat → Nat → Nat) (orig : String) (c : Char)
    (cs : List Char) (d : Nat) (hall : ∀ y ∈ c :: cs, (y = '.' || isDigit y) = true) :
    parseRound frac orig c cs d = .error ("time: invalid duration " ++ quote orig) ∨
    parseRound frac orig c cs d = .error ("time: missing unit in duration " ++ quote orig) := by
  unfold parseRound
  split
  · exact .inl rfl
  · split
    · exact .inl rfl
    · rename_i v s1 hli
      obtain ⟨ds, hds, _⟩ := leadingIntFrom_split _ 0 v s1 hli
      obtain ⟨m, hm, _⟩ := optionalFraction_split s1
      have hs2 : ∀ y ∈ (optionalFraction s1).2.2.1, (y = '.' || isDigit y) = true := by
        intro y hy
        refine hall y ?_
        rw [hds, hm]
        exact List.mem_append_right _ (List.mem_append_right _ hy)
      simp only [takeWhile_unit_of_magnitude _ hs2, List.length_nil, if_true]
      split
      · exact .inl rfl
      · exact .inr rfl

theorem ParseDuration_of_sign (frac : Nat → Nat → Nat → Nat) (orig : String) (neg : Bool)
    (body : List Char)
    (hsg : (match orig.data with
      | '-' :: r => (true, r)
      | '+' :: r => (false, r)
      | r => (false, r)) = (neg, body)) :
    ParseDuration frac orig =
      if body = ['0'] then .ok 0
      else if body = [] then .error ("time: invalid duration " ++ quote orig)
      else
        match parseLoop frac orig body.length body 0 with
        | .error err => .error err
        | .ok d =>
          if neg = true then .ok (-(d : Int))
          else if d > 2 ^ 63 - 1 then .error ("time: invalid duration " ++ quote orig)
          else .ok (d : Int) := by
  unfold ParseDuration
  simp only [hsg]

theorem sign_of_text (l body : List Char) :
    (l = body ∨ l = '-' :: body ∨ l = '+' :: body) →
    (∀ y ∈ body, (y = '.' || isDigit y) = true) →
    ∃ neg : Bool, (match l with
      | '-' :: r => (true, r)
      | '+' :: r => (false, r)
      | r => (false, r)) = (neg, body) := by
  intro hshape hall
  rcases hshape with h | h | h
  · subst h
    refine ⟨false, ?_⟩
    split
    · rename_i r
      have := hall '-' (List.mem_cons_self _ _)
      exact absurd this (by decide)
    · rename_i r
      have := hall '+' (List.mem_cons_self _ _)
      exact absurd this (by decide)
    · rfl
  · subst h
    exact ⟨true, rfl⟩
  · subst h
    exact ⟨false, rfl⟩

theorem ParseDuration_bare (frac : Nat → Nat → Nat → Nat) (orig : String) (body : List Char)
    (hshape : orig.data = body ∨ orig.data = '-' :: body ∨ orig.data = '+' :: body)
    (hall : ∀ y ∈ body, (y = '.' || isDigit y) = true) (h0 : body ≠ ['0']) :
    ParseDuration frac orig = .error ("time: invalid duration " ++ quote orig) ∨
    ParseDuration frac orig = .error ("time: missing unit in duration " ++ quote orig) := by
  obtain ⟨neg, hsg⟩ := sign_of_text orig.data body hshape hall
  rw [ParseDuration_of_sign frac orig neg body hsg]
  simp only [h0, if_false]
  cases body with
  | nil => exact .inl (by simp only [if_true])
  | cons c cs =>
    have hne : ¬ c :: cs = [] := by simp
    simp only [hne, if_false, List.length_cons, parseLoop]
    rcases parseRound_bare frac orig c cs 0 hall with h | h
    · exact .inl (by rw [h])
    · exact .inr (by rw [h])

theorem parseRound_decimal_bare (frac : Nat → Nat → Nat → Nat) (orig : String) (n : Nat)
    (c : Char) (cs : List Char) (hs : c :: cs = decimal n) (d : Nat) :
    parseRound frac orig c cs d =
      if n ≤ 2 ^ 63 then .error ("time: missing unit in duration " ++ quote orig)
      else .error ("time: invalid duration " ++ quote orig) := by
  have hdig : isDigit c = true :=
    decimal_isDigit n c (by rw [← hs]; exact List.mem_cons_self _ _)
  have hli : leadingInt (c :: cs) = if n ≤ 2 ^ 63 then some (n, []) else none := by
    have := leadingInt_decimal n [] (fun _ hc => by cases hc)
    rw [List.append_nil, ← hs] at this
    exact this
  have hlen : ((c :: cs).length != 0) = true := by
    simp only [List.length_cons, bne_iff_ne, ne_eq]
    omega
  have hof := optionalFraction_of_unit [] (fun _ hc => by cases hc)
  unfold parseRound
  rw [hli]
  by_cases hn : n ≤ 2 ^ 63
  · simp only [hdig, Bool.or_true, Bool.not_true, Bool.false_eq_true, if_false, hn, if_true,
      hof, hlen, Bool.and_false, Bool.false_and, List.takeWhile_nil, List.length_nil]
  · simp only [hdig, Bool.or_true, Bool.not_true, Bool.false_eq_true, if_false, hn]

theorem ParseDuration_bare_integer (frac : Nat → Nat → Nat → Nat) (n : Nat) (hn : n ≠ 0) :
    ParseDuration frac (String.mk (decimal n)) =
      if n ≤ 2 ^ 63 then
        .error ("time: missing unit in duration " ++ quote (String.mk (decimal n)))
      else .error ("time: invalid duration " ++ quote (String.mk (decimal n))) := by
  obtain ⟨x, xs, hx, hxm⟩ := decimal_head n
  have hxd : isDigit x = true := decimal_isDigit n x (by rw [hx]; exact List.mem_cons_self _ _)
  have hxp : x ≠ '+' := by
    intro h
    rw [h] at hxd
    exact absurd hxd (by decide)
  have h0 : ¬ x :: xs = ['0'] := by
    intro h
    have hv := digitsValue_decimal n
    rw [hx, h] at hv
    exact hn (by rw [← hv]; rfl)
  rw [ParseDuration_unsigned frac _ x xs (by rw [← hx]) hxm hxp]
  simp only [h0, if_false, List.length_cons, parseLoop,
    parseRound_decimal_bare frac _ n x xs hx.symm 0]
  by_cases hle : n ≤ 2 ^ 63
  · simp only [hle, if_true]
  · simp only [hle, if_false]

/-- C14, counterexample.  On the in-memory storage, a write with
`lease = "100ms"` (and `lease_max = "1h"`) is not rejected: it succeeds, and
`Lease` afterwards returns a `Lease` of 100 ms.  The sub-second texts `"5us"` and
`"1ns"` are accepted in the same way, as 5000 ns and 1 ns. -/
theorem units_only_s_m_h_counterexample :
    ((pathConfigLeaseWrite refCollab [] { Raw := [("lease", "100ms"), ("lease_max", "1h")] }).2
        = (none, none) ∧
      Lease refCollab
          (pathConfigLeaseWrite refCollab []
            { Raw := [("lease", "100ms"), ("lease_max", "1h")] }).1
        = (some { Lease := 100000000, LeaseMax := 3600000000000 }, none)) ∧
    ((pathConfigLeaseWrite refCollab [] { Raw := [("lease", "5us"), ("lease_max", "1h")] }).2
        = (none, none) ∧
      Lease refCollab
          (pathConfigLeaseWrite refCollab [] { Raw := [("lease", "5us"), ("lease_max", "1h")] }).1
        = (some { Lease := 5000, LeaseMax := 3600000000000 }, none)) ∧
    ((pathConfigLeaseWrite refCollab [] { Raw := [("lease", "1ns"), ("lease_max", "1h")] }).2
        = (none, none) ∧
      Lease refCollab
          (pathConfigLeaseWrite refCollab [] { Raw := [("lease", "1ns"), ("lease_max", "1h")] }).1
        = (some { Lease := 1, LeaseMax := 3600000000000 }, none)) :=
  ⟨refCollab_write_then_lease [] { Raw := [("lease", "100ms"), ("lease_max", "1h")] }
      100000000 3600000000000
      ⟨by decide, by decide, parse_100ms fracExact, parse_1h fracExact⟩,
    refCollab_write_then_lease [] { Raw := [("lease", "5us"), ("lease_max", "1h")] }
      5000 3600000000000
      ⟨by decide, by decide, parse_5us fracExact, parse_1h fracExact⟩,
    refCollab_write_then_lease [] { Raw := [("lease", "1ns"), ("lease_max", "1h")] }
      1 3600000000000
      ⟨by decide, by decide, parse_1ns fracExact, parse_1h fracExact⟩⟩

/-- C14, as amended.  With the standard-library parser, every `lease` (and
`lease_max`) text that `pathConfigLeaseWrite` does not reject, other than an
optionally signed bare `0`, is, after an optional sign, a sequence of one or more
magnitude+unit pairs whose units are among `ns`, `us`, `µs`, `μs`, `ms`, `s`,
`m`, `h`.  The sub-second texts `"100ms"`, `"5us"` and `"1ns"` are accepted.  A
bare magnitude with no unit other than `0`, that is any non-empty text of digits
and periods only, optionally signed, is rejected as `lease` (with `lease_max`
non-empty) with an "Invalid 'lease': " response that carries the parser's
"invalid duration" or "missing unit" message; for a decimal integer `n ≥ 1` the
message is "missing unit" when `n ≤ 2^63` and "invalid duration" above. -/
theorem accepted_lease_texts (E : Collab σ) (frac : Nat → Nat → Nat → Nat)
    (hP : E.ParseDuration = ParseDuration frac) (s : σ) (d : FieldData) :
    ((pathConfigLeaseWrite E s d).2.1 = none →
      (∃ body, ((d.Get "lease").data = body ∨ (d.Get "lease").data = '-' :: body ∨
          (d.Get "lease").data = '+' :: body) ∧
        (body ≠ ['0'] → body ≠ [] ∧ UnitPairs body)) ∧
      (∃ body, ((d.Get "lease_max").data = body ∨ (d.Get "lease_max").data = '-' :: body ∨
          (d.Get "lease_max").data = '+' :: body) ∧
        (body ≠ ['0'] → body ≠ [] ∧ UnitPairs body))) ∧
    (∀ u : List Char, (unitMap.lookup (String.mk u)).isSome = true →
      String.mk u ∈ ["ns", "us", "µs", "μs", "ms", "s", "m", "h"]) ∧
    (E.ParseDuration "100ms" = .ok 100000000 ∧ E.ParseDuration "5us" = .ok 5000 ∧
      E.ParseDuration "1ns" = .ok 1) ∧
    (∀ body : List Char,
      ((d.Get "lease").data = body ∨ (d.Get "lease").data = '-' :: body ∨
        (d.Get "lease").data = '+' :: body) →
      body ≠ [] → (∀ y ∈ body, (y = '.' || isDigit y) = true) → body ≠ ['0'] →
      d.Get "lease_max" ≠ "" →
      pathConfigLeaseWrite E s d =
          (s, some (ErrorResponse ("Invalid 'lease': " ++
            ("time: invalid duration " ++ quote (d.Get "lease")))), none) ∨
        pathConfigLeaseWrite E s d =
          (s, some (ErrorResponse ("Invalid 'lease': " ++
            ("time: missing unit in duration " ++ quote (d.Get "lease")))), none)) ∧
    (∀ n : Nat, n ≠ 0 → d.Get "lease" = String.mk (decimal n) → d.Get "lease_max" ≠ "" →
      pathConfigLeaseWrite E s d =
        (s, some (ErrorResponse ("Invalid 'lease': " ++
          (if n ≤ 2 ^ 63 then "time: missing unit in duration " ++ quote (d.Get "lease")
            else "time: invalid duration " ++ quote (d.Get "lease")))), none)) := by
  have hshape : ∀ l : List Char, DurationText l →
      ∃ body, (l = body ∨ l = '-' :: body ∨ l = '+' :: body) ∧
        (body ≠ ['0'] → body ≠ [] ∧ UnitPairs body) := by
    rintro l ⟨body, hb, h0 | hp⟩
    · exact ⟨body, hb, fun hne => absurd h0 hne⟩
    · exact ⟨body, hb, fun _ => hp⟩
  refine ⟨fun h => ?_, fun u hu => unitMap_names _ hu,
    ⟨by rw [hP]; exact parse_100ms frac, by rw [hP]; exact parse_5us frac,
      by rw [hP]; exact parse_1ns frac⟩,
    fun body hb hne hall h0 hm => ?_, fun n hn hl hm => ?_⟩
  · rcases valid_or_invalid E d with ⟨d1, d2, _, _, hp1, hp2⟩ | hi
    · rw [hP] at hp1 hp2
      exact ⟨hshape _ (ParseDuration_durationText frac _ d1 hp1),
        hshape _ (ParseDuration_durationText frac _ d2 hp2)⟩
    · obtain ⟨msg, hmsg⟩ := write_invalid E s d hi
      rw [hmsg] at h
      cases h
  · have hlne : d.Get "lease" ≠ "" := by
      intro he
      rw [he] at hb
      rcases hb with hb | hb | hb
      · exact hne hb.symm
      · cases hb
      · cases hb
    rcases ParseDuration_bare frac (d.Get "lease") body hb hall h0 with hp | hp
    · exact .inl (write_invalid_lease E s d _ hlne hm (by rw [hP, hp]))
    · exact .inr (write_invalid_lease E s d _ hlne hm (by rw [hP, hp]))
  · have hlne : d.Get "lease" ≠ "" := by
      rw [hl]
      intro he
      obtain ⟨x, xs, hx, _⟩ := decimal_head n
      have := congrArg String.data he
      rw [hx] at this
      cases this
    have hp := ParseDuration_bare_integer frac n hn
    rw [← hl] at hp
    by_cases hle : n ≤ 2 ^ 63
    · simp only [hle, if_true] at hp ⊢
      exact write_invalid_lease E s d _ hlne hm (by rw [hP, hp])
    · simp only [hle, if_false] at hp ⊢
      exact write_invalid_lease E s d _ hlne hm (by rw [hP, hp])

/-- Witness for C14 as amended: on the in-memory storage, `lease = "5"` with
`lease_max = "1h"` is rejected for the missing unit. -/
theorem accepted_lease_texts_witness :
    pathConfigLeaseWrite refCollab [] { Raw := [("lease", "5"), ("lease_max", "1h")] }
      = ([], some (ErrorResponse ("Invalid 'lease': " ++
          "time: missing unit in duration \"5\"")), none) := by
  have h := (accepted_lease_texts refCollab fracExact rfl []
    { Raw := [("lease", "5"), ("lease_max", "1h")] }).2.2.2.2 5 (by decide)
    (by rw [decimal]; rfl) (by decide)
  rw [if_pos (by decide)] at h
  exact h

/-! ## The effects of `Lease` and of a write -/

theorem set_last (l : List configLease) (z r : configLease) :
    (l ++ [z]).set l.length r = l ++ [r] := by
  rw [List.set_append_right _ _ (Nat.le_refl _)]
  simp

theorem LeaseW_cases (E : Collab σ) (w : World σ) :
    (∃ err, LeaseW E w =
      ({ w with calls := w.calls ++ [.get "config/lease"] }, none, some err) ∧
      Lease E w.storage = (none, some err) ∧ E.Get w.storage "config/lease" = .error err) ∨
    (LeaseW E w = ({ w with calls := w.calls ++ [.get "config/lease"] }, none, none) ∧
      Lease E w.storage = (none, none)) ∨
    (∃ err, LeaseW E w =
      ({ w with calls := w.calls ++ [.get "config/lease"],
                heap := w.heap ++ [{ Lease := 0, LeaseMax := 0 }] }, none, some err) ∧
      Lease E w.storage = (none, some err)) ∨
    (∃ c, LeaseW E w =
      ({ w with calls := w.calls ++ [.get "config/lease"], heap := w.heap ++ [c] },
        some w.heap.length, none) ∧
      Lease E w.storage = (some c, none)) := by
  cases hg : E.Get w.storage "config/lease" with
  | error err =>
    exact .inl ⟨err, by simp [LeaseW, hg], lease_get_error E _ err hg, rfl⟩
  | ok o =>
    cases o with
    | none => exact .inr (.inl ⟨by simp [LeaseW, hg], lease_absent E _ hg⟩)
    | some entry =>
      cases hd : E.Unmarshal entry.Value with
      | error err =>
        exact .inr (.inr (.inl ⟨err, by simp [LeaseW, hg, StorageEntry.DecodeJSON, hd],
          lease_decode_error E _ entry err hg hd⟩))
      | ok c =>
        refine .inr (.inr (.inr ⟨c, ?_, lease_decoded E _ entry c hg hd⟩))
        simp only [LeaseW, hg, StorageEntry.DecodeJSON, hd, set_last]

theorem pathConfigLeaseWriteW_refines (E : Collab σ) (w : World σ) (d : FieldData) :
    (pathConfigLeaseWriteW E w d).1.storage = (pathConfigLeaseWrite E w.storage d).1 ∧
    (pathConfigLeaseWriteW E w d).2 = (pathConfigLeaseWrite E w.storage d).2 := by
  unfold pathConfigLeaseWriteW pathConfigLeaseWrite
  simp only
  split
  · exact ⟨rfl, rfl⟩
  · split
    · exact ⟨rfl, rfl⟩
    · split
      · exact ⟨rfl, rfl⟩
      · split
        · exact ⟨rfl, rfl⟩
        · split
          · exact ⟨rfl, rfl⟩
          · split <;> (rename_i hP; simp only [hP]; exact ⟨trivial, trivial⟩)

theorem pathConfigLeaseWriteW_heap (E : Collab σ) (w : World σ) (d : FieldData) :
    ∃ extra, (pathConfigLeaseWriteW E w d).1.heap = w.heap ++ extra := by
  unfold pathConfigLeaseWriteW
  simp only
  split
  · exact ⟨[], by simp⟩
  · split
    · exact ⟨[], by simp⟩
    · split
      · exact ⟨[], by simp⟩
      · split
        · exact ⟨[], by simp⟩
        · split
          · exact ⟨_, rfl⟩
          · split <;> exact ⟨_, rfl⟩

theorem LeaseW_heap (E : Collab σ) (w : World σ) :
    ∃ extra, (LeaseW E w).1.heap = w.heap ++ extra := by
  rcases LeaseW_cases E w with ⟨err, h, _⟩ | ⟨h, _⟩ | ⟨err, h, _⟩ | ⟨c, h, _⟩
  · exact ⟨[], by rw [h]; simp⟩
  · exact ⟨[], by rw [h]; simp⟩
  · exact ⟨_, by rw [h]⟩
  · exact ⟨_, by rw [h]⟩

theorem runW_heap (E : Collab σ) (ops : List Op) :
    ∀ w : World σ, ∃ extra, (runW E w ops).heap = w.heap ++ extra := by
  induction ops with
  | nil => intro w; exact ⟨[], by simp [runW]⟩
  | cons op ops ih =>
    intro w
    obtain ⟨e2, h2⟩ := ih (stepW E w op)
    have h1 : ∃ e1, (stepW E w op).heap = w.heap ++ e1 := by
      cases op with
      | write d => exact pathConfigLeaseWriteW_heap E w d
      | lease => exact LeaseW_heap E w
    obtain ⟨e1, h1⟩ := h1
    exact ⟨e1 ++ e2, by rw [runW, h2, h1, List.append_assoc]⟩

theorem runW_keeps (E : Collab σ) (w : World σ) (ops : List Op) (i : Nat)
    (hi : i < w.heap.length) : (runW E w ops).heap[i]? = w.heap[i]? := by
  obtain ⟨extra, h⟩ := runW_heap E ops w
  rw [h, List.getElem?_append_left hi]

theorem LeaseW_calls (E : Collab σ) (w : World σ) :
    (LeaseW E w).1.calls = w.calls ++ [.get "config/lease"] := by
  rcases LeaseW_cases E w with ⟨err, h, _⟩ | ⟨h, _⟩ | ⟨err, h, _⟩ | ⟨c, h, _⟩ <;> rw [h]

theorem LeaseW_storage (E : Collab σ) (w : World σ) : (LeaseW E w).1.storage = w.storage := by
  rcases LeaseW_cases E w with ⟨err, h, _⟩ | ⟨h, _⟩ | ⟨err, h, _⟩ | ⟨c, h, _⟩ <;> rw [h]

theorem LeaseW_refines (E : Collab σ) (w : World σ) :
    ((LeaseW E w).1.deref (LeaseW E w).2.1, (LeaseW E w).2.2) = Lease E w.storage := by
  rcases LeaseW_cases E w with ⟨err, h, hl, _⟩ | ⟨h, hl⟩ | ⟨err, h, hl⟩ | ⟨c, h, hl⟩
  · rw [h, hl]; rfl
  · rw [h, hl]; rfl
  · rw [h, hl]; rfl
  · rw [h, hl]
    simp [World.deref]

theorem LeaseW_fresh (E : Collab σ) (w : World σ) (p : Nat) (h : (LeaseW E w).2.1 = some p) :
    p = w.heap.length ∧ (LeaseW E w).1.heap.length = w.heap.length + 1 := by
  rcases LeaseW_cases E w with ⟨err, h1, _⟩ | ⟨h1, _⟩ | ⟨err, h1, _⟩ | ⟨c, h1, _⟩
  · rw [h1] at h; cases h
  · rw [h1] at h; cases h
  · rw [h1] at h; cases h
  · rw [h1] at h ⊢
    simp only [Option.some.injEq] at h
    exact ⟨h.symm, by simp⟩

/-- C16 (`Lease` is a pure read).  For every storage state, whatever calls were
made before and whatever records exist: a `Lease` call makes exactly one storage
call, the `Get` at `"config/lease"`, and no `Put`; it leaves the storage as it
was; the record and error it returns are those of `Lease` on that storage, so a
second `Lease` call right after returns the same record values or the same nil
or error outcome.  The record returned lives at a fresh address, distinct from
every record that existed before and from the one a second call returns, no
existing record is altered, and after every later sequence of writes and `Lease`
calls (a later write in particular) the returned pointer still points to the
same record values. -/
theorem lease_is_pure_read (E : Collab σ) (w : World σ) :
    (LeaseW E w).1.calls = w.calls ++ [StorageCall.get "config/lease"] ∧
    (LeaseW E w).1.storage = w.storage ∧
    ((LeaseW E w).1.deref (LeaseW E w).2.1, (LeaseW E w).2.2) = Lease E w.storage ∧
    ((LeaseW E (LeaseW E w).1).1.deref (LeaseW E (LeaseW E w).1).2.1
        = (LeaseW E w).1.deref (LeaseW E w).2.1 ∧
      (LeaseW E (LeaseW E w).1).2.2 = (LeaseW E w).2.2) ∧
    (∀ p, (LeaseW E w).2.1 = some p →
      w.heap.length ≤ p ∧ p < (LeaseW E w).1.heap.length ∧
      ∀ q, (LeaseW E (LeaseW E w).1).2.1 = some q → q ≠ p) ∧
    (∀ i, i < w.heap.length → (LeaseW E w).1.heap[i]? = w.heap[i]?) ∧
    (∀ ops, (runW E (LeaseW E w).1 ops).deref (LeaseW E w).2.1
        = (LeaseW E w).1.deref (LeaseW E w).2.1) ∧
    (∀ d, (pathConfigLeaseWriteW E (LeaseW E w).1 d).1.deref (LeaseW E w).2.1
        = (LeaseW E w).1.deref (LeaseW E w).2.1) := by
  have hkeep : ∀ ops, (runW E (LeaseW E w).1 ops).deref (LeaseW E w).2.1
      = (LeaseW E w).1.deref (LeaseW E w).2.1 := by
    intro ops
    cases hp : (LeaseW E w).2.1 with
    | none => rfl
    | some p =>
      obtain ⟨hp1, hlen⟩ := LeaseW_fresh E w p hp
      exact runW_keeps E _ ops p (by omega)
  have hsecond := LeaseW_refines E (LeaseW E w).1
  rw [LeaseW_storage, ← LeaseW_refines E w] at hsecond
  refine ⟨LeaseW_calls E w, LeaseW_storage E w, LeaseW_refines E w,
    ⟨(Prod.mk.inj hsecond).1, (Prod.mk.inj hsecond).2⟩, fun p hp => ?_, fun i hi => ?_,
    hkeep, fun d => hkeep [.write d]⟩
  · obtain ⟨hp1, hlen⟩ := LeaseW_fresh E w p hp
    refine ⟨by omega, by omega, fun q hq => ?_⟩
    obtain ⟨hq1, _⟩ := LeaseW_fresh E (LeaseW E w).1 q hq
    omega
  · obtain ⟨extra, h⟩ := LeaseW_heap E w
    rw [h, List.getElem?_append_left hi]

theorem LeaseW_exampleWorld :
    LeaseW refCollab exampleWorld =
      ({ storage := exampleWorld.storage
         calls := [.get "config/lease"]
         heap := [{ Lease := 1, LeaseMax := 2 }, { Lease := 5, LeaseMax := 7 }] },
        some 1, none) := by
  decide

/-- Witness for C16: in the example world `Lease` returns a pointer to a new
record `(5, 7)`, and after a later successful write of `("1h", "24h")` that
pointer still points to `(5, 7)`. -/
theorem lease_is_pure_read_witness :
    (LeaseW refCollab exampleWorld).2.1 = some 1 ∧
    (pathConfigLeaseWriteW refCollab (LeaseW refCollab exampleWorld).1
        { Raw := [("lease", "1h"), ("lease_max", "24h")] }).1.deref
        (LeaseW refCollab exampleWorld).2.1
      = some { Lease := 5, LeaseMax := 7 } := by
  have h := (lease_is_pure_read refCollab exampleWorld).2.2.2.2.2.2.2
    { Raw := [("lease", "1h"), ("lease_max", "24h")] }
  refine ⟨by rw [LeaseW_exampleWorld], ?_⟩
  rw [h, LeaseW_exampleWorld]
  rfl

end Vault.SSH
